import Mathlib

/-!
Array list (`AList`) and array list with an equality predicate (`AListEq`) of `collections.c`.

A shallow embedding of the two containers of `collections.c` and theorems about them.

Modelling conventions.

* A cell of `cellSize` bytes is a value of type `Option α`: `some a` for the bytes of the value
  `a`, `none` for indeterminate bytes (fresh memory from `malloc`). `memcpy` of `cellSize` bytes
  copies one cell. Blocks are measured in cells: the byte count `cellSize * n` handed to
  `malloc` and `realloc` is assumed not to wrap around `size_t`.
* `int` fields are integers; `++`, `--` and `*=` wrap to 32 bits (`wrapInt`).
* A pointer (`Ptr`) is `NULL`, the address of a cell of the list's block (offset in cells from
  `content`, possibly outside the block), or the address of a cell outside the block
  (memory of the caller, scratch memory), given with the bytes it holds.
* The allocator is an argument: each `malloc`/`realloc` call of a function has a `Bool`
  argument saying whether it succeeds.
* An access outside an allocated block (or through `NULL`) is undefined behaviour in C. The model
  records it in the ghost field `ub` and goes on with the block unchanged, so that the values of
  the fields `capacity` and `length` stay visible afterwards.
* A handle `AList *` is an `Option (AList α)`: `none` is `NULL`, `some l` points at a struct
  whose fields are `l`. Mutating functions return the returned value and the struct after
  the call; functions that only read return their value.
* The predicate of an `AListEq` is a total function of the bytes behind its two pointers.
* Loops run on fuel. Where the fuel is fixed by the function, a lemma shows that more fuel
  changes nothing; the loop of `AListEq_removeAll` takes its fuel as an argument and yields
  `none` when it is still running.
-/

namespace Collections

/-- Largest value of a C `int`. -/
def INT_MAX : Int := 2147483647

/-- Two's-complement wrap-around of a 32-bit signed `int`. -/
def wrapInt (x : Int) : Int := (x + 2147483648) % 4294967296 - 2147483648

/-- The struct `AList`; `content` is the block the C field points to, one entry per allocated
cell. The field `ub` is ghost: it is set once a cell outside the block has been accessed. -/
structure AList (α : Type) where
  content : List (Option α)
  cellSize : Nat
  capacity : Int
  length : Int
  ub : Bool
deriving DecidableEq, Repr

/-- A `void *`: `null`, `cell i` for `content + cellSize * i`, `ext c` for the address of a
cell outside the list's block that holds the bytes `c`. -/
inductive Ptr (α : Type) where
  | null : Ptr α
  | cell : Int → Ptr α
  | ext : Option α → Ptr α
deriving DecidableEq, Repr

variable {α : Type}

/-- Whether `content + cellSize * i` lies inside the allocated block. -/
def inBlock (l : AList α) (i : Int) : Bool :=
  decide (0 ≤ i) && decide (i < (l.content.length : Int))

/-- Whether `cellSize` bytes can be read through the pointer. -/
def readable (l : AList α) : Ptr α → Bool
  | Ptr.null => false
  | Ptr.cell i => inBlock l i
  | Ptr.ext _ => true

/-- The bytes read through the pointer (`none` when they are indeterminate). -/
def load (l : AList α) : Ptr α → Option α
  | Ptr.null => none
  | Ptr.cell i => if inBlock l i then l.content.getD i.toNat none else none
  | Ptr.ext c => c

/-- The call `memcpy(dst, src, this->cellSize)` where `dst` was returned by `AList_get`: the
cell is overwritten when `dst` lies in the block and `src` can be read; otherwise the access is
undefined and only the ghost flag changes. -/
def memcpyToList (l : AList α) (dst src : Ptr α) : AList α :=
  match dst with
  | Ptr.cell i =>
    if inBlock l i && readable l src then
      { l with content := l.content.set i.toNat (load l src) }
    else { l with ub := true }
  | _ => { l with ub := true }

/-- The call `memcpy(dst, src, this->cellSize)` where `dst` is a scratch cell from
`malloc(cellSize)` (`dstOk` is false when that `malloc` returned `NULL`); yields the struct and
the bytes of the scratch cell afterwards. -/
def memcpyToScratch (l : AList α) (dstOk : Bool) (src : Ptr α) : AList α × Option α :=
  if dstOk && readable l src then (l, load l src) else ({ l with ub := true }, none)

/-- The pointer held by a variable assigned from `malloc(cellSize)`, with the bytes of its cell. -/
def scratchPtr (ok : Bool) (c : Option α) : Ptr α :=
  if ok then Ptr.ext c else Ptr.null

/-- The block after `realloc(content, n * cellSize)` succeeded: the old cells up to the smaller
size, then indeterminate ones. -/
def reallocBlock (content : List (Option α)) (n : Int) : List (Option α) :=
  content.take n.toNat ++ List.replicate (n.toNat - content.length) none

/-- The function `AList_new`: `mallocThis` and `mallocContent` say whether the two `malloc` calls
succeed. A negative capacity is rejected, the capacity 0 is accepted; the cells of the new block
are indeterminate. -/
def AList_new (cellSize : Nat) (initialCapacity : Int) (mallocThis mallocContent : Bool) :
    Option (AList α) :=
  if !mallocThis then none
  else if !mallocContent then none
  else if initialCapacity < 0 then none
  else some { content := List.replicate initialCapacity.toNat none,
              cellSize := cellSize,
              capacity := initialCapacity,
              length := 0,
              ub := false }

/-- The function `AList_get`: the check is `index >= this->length` only, a negative index yields
a pointer before the block. -/
def AList_get (this : Option (AList α)) (index : Int) : Ptr α :=
  match this with
  | none => Ptr.null
  | some l => if index ≥ l.length then Ptr.null else Ptr.cell index

/-- The function `AList_set`: returns 1 on a `NULL` list, an index out of bounds or a `NULL`
result of `AList_get`, and otherwise copies the cell and returns 0. -/
def AList_set (this : Option (AList α)) (index : Int) (valuePointer : Ptr α) :
    Int × Option (AList α) :=
  match this with
  | none => (1, none)
  | some l =>
    if index < 0 ∨ index ≥ l.length then (1, some l)
    else
      match AList_get (some l) index with
      | Ptr.null => (1, some l)
      | p => (0, some (memcpyToList l p valuePointer))

/-- The function `AList_size`: the field `length`, or -1 for a `NULL` list. -/
def AList_size (this : Option (AList α)) : Int :=
  match this with
  | none => -1
  | some l => l.length

/-- The function `AList_add`; `realloc` says whether the call of `realloc` succeeds. The field
`capacity` is doubled before `realloc` is called. The guard
`capacity > INT_MAX * 0.5` compares with the double 1073741823.5, which is exact for an `int`:
it holds exactly when `INT_MAX < 2 * capacity`. -/
def AList_add (this : Option (AList α)) (valuePointer : Ptr α) (realloc : Bool) :
    Int × Option (AList α) :=
  match this with
  | none => (1, none)
  | some l =>
    if l.length < l.capacity then
      let l1 := { l with length := wrapInt (l.length + 1) }
      AList_set (some l1) (l1.length - 1) valuePointer
    else if INT_MAX < 2 * l.capacity then (1, some l)
    else
      let l1 := { l with capacity := wrapInt (l.capacity * 2) }
      if !realloc then (1, some l1)
      else
        let l2 := { l1 with content := reallocBlock l1.content l1.capacity }
        let l3 := { l2 with length := wrapInt (l2.length + 1) }
        AList_set (some l3) (l3.length - 1) valuePointer

/-- The loop of `AList_remove`, `for (i = index; i < this->length - 1; i++)`, run for at most
`fuel` iterations. -/
def AList_remove_loop : Nat → AList α → Int → AList α
  | 0, l, _ => l
  | fuel + 1, l, i =>
    if i < l.length - 1 then
      match (AList_set (some l) i (AList_get (some l) (i + 1))).2 with
      | some l1 => AList_remove_loop fuel l1 (i + 1)
      | none => l
    else l

/-- The function `AList_remove`. The loop gets `length - index` units of fuel, one more than
the number of its iterations (`AList_remove_loop_fuel`: more fuel changes nothing). -/
def AList_remove (this : Option (AList α)) (index : Int) : Int × Option (AList α) :=
  match this with
  | none => (1, none)
  | some l =>
    if index < 0 ∨ index ≥ l.length then (1, some l)
    else
      let l1 := AList_remove_loop (l.length - index).toNat l index
      (0, some { l1 with length := wrapInt (l1.length - 1) })

/-- The loop of `AList_insert`, `for (i = index; i < this->length; i++)`, run for at most `fuel`
iterations; `new` is the content of the scratch cell `new`. Yields the struct and the content
of `new` after the loop. -/
def AList_insert_loop (newOk nextNewOk : Bool) : Nat → AList α → Int → Option α →
    AList α × Option α
  | 0, l, _, new => (l, new)
  | fuel + 1, l, i, new =>
    if i < l.length then
      let r1 := memcpyToScratch l nextNewOk (AList_get (some l) i)
      let l2 := memcpyToList r1.1 (AList_get (some r1.1) i) (scratchPtr newOk new)
      let r3 := memcpyToScratch l2 newOk (scratchPtr nextNewOk r1.2)
      AList_insert_loop newOk nextNewOk fuel r3.1 (i + 1) r3.2
    else (l, new)

/-- The statements of `AList_insert` after the bounds check, with the value returned by its call
of `AList_add` (which `AList_insert` discards). `mallocNew` and `mallocNextNew` say whether the
two `malloc(cellSize)` calls succeed, `realloc` whether the one in `AList_add` does. The loop
gets `length - index` units of fuel, the number of its iterations (`AList_insert_loop_fuel`:
more fuel changes nothing). -/
def AList_insert_body (l : AList α) (index : Int) (valuePointer : Ptr α)
    (mallocNew mallocNextNew realloc : Bool) : Int × Option (AList α) :=
  let r0 := memcpyToScratch l mallocNew valuePointer
  let r1 := AList_insert_loop mallocNew mallocNextNew (r0.1.length - index).toNat r0.1 index r0.2
  AList_add (some r1.1) (scratchPtr mallocNew r1.2) realloc

/-- The function `AList_insert`. The returned value is `some 1` on the two early returns and
`none` when control reaches the closing brace, where the function has no `return` statement. -/
def AList_insert (this : Option (AList α)) (index : Int) (valuePointer : Ptr α)
    (mallocNew mallocNextNew realloc : Bool) : Option Int × Option (AList α) :=
  match this with
  | none => (some 1, none)
  | some l =>
    if index < 0 ∨ index > l.length then (some 1, some l)
    else (none, (AList_insert_body l index valuePointer mallocNew mallocNextNew realloc).2)

/-- A container in a valid state: no undefined behaviour so far, `capacity` is the number of
cells allocated, and `0 ≤ length ≤ capacity ≤ INT_MAX`. -/
def Valid (l : AList α) : Prop :=
  l.ub = false ∧ (l.content.length : Int) = l.capacity ∧ 0 ≤ l.length ∧
    l.length ≤ l.capacity ∧ l.capacity ≤ INT_MAX

instance [DecidableEq α] (l : AList α) : Decidable (Valid l) := by
  unfold Valid; infer_instance

/-- The elements of the container in order: the first `length` cells. -/
def elems (l : AList α) : List (Option α) := l.content.take l.length.toNat

/-- The bytes `AList_get(this, i)` points to. -/
def deref (l : AList α) (i : Int) : Option α := load l (AList_get (some l) i)

/-- The struct with cell `k` of its block overwritten. -/
def setCell (l : AList α) (k : Nat) (c : Option α) : AList α :=
  { l with content := l.content.set k c }

/-- A container with three elements in a block of four cells. -/
def exList : AList Nat :=
  { content := [some 10, some 20, some 30, none], cellSize := 4, capacity := 4, length := 3,
    ub := false }

/-- A call of `AList_insert` on the struct `l` succeeded: the index passed the bounds check, the
call of `AList_add` at its end returned 0, and no access outside a block took place. -/
def InsertSucceeded (l : AList α) (index : Int) (valuePointer : Ptr α)
    (mallocNew mallocNextNew realloc : Bool) : Prop :=
  0 ≤ index ∧ index ≤ l.length ∧
  (AList_insert_body l index valuePointer mallocNew mallocNextNew realloc).1 = 0 ∧
  ∃ l1 : AList α,
    (AList_insert_body l index valuePointer mallocNew mallocNextNew realloc).2 = some l1 ∧
    l1.ub = false

/-- The ghost flag of the struct behind a handle (`false` for `NULL`). -/
def ubOf (h : Option (AList α)) : Bool :=
  match h with
  | none => false
  | some l => l.ub

/-- The conditions under which `AList_add` on a valid container succeeds. -/
def AddCanSucceed (l : AList α) (realloc : Bool) : Prop :=
  l.length < l.capacity ∨ (0 < l.capacity ∧ 2 * l.capacity ≤ INT_MAX ∧ realloc = true)

/-- A full container: two elements in a block of two cells. -/
def exFull : AList Nat :=
  { content := [some 1, some 2], cellSize := 4, capacity := 2, length := 2, ub := false }

/-- The loop of the driver in `test.c`: one `AList_add` per value, in order, the returned
values ignored; every `realloc` succeeds. -/
def addAll (this : Option (AList α)) : List α → Option (AList α)
  | [] => this
  | v :: vs => addAll (AList_add this (Ptr.ext (some v)) true).2 vs

/-- The struct `AListEq`: the pointer `list` together with the struct it points to, and the
predicate `eq`, given as a total function of the bytes behind its two pointer arguments (it
reads them and writes nothing). -/
structure AListEq (α : Type) where
  list : Option (AList α)
  eq : Option α → Option α → Bool

/-- The bytes read through a pointer, relative to the block of the list behind `h`. -/
def loadVia (h : Option (AList α)) (p : Ptr α) : Option α :=
  match h with
  | some l => load l p
  | none =>
    match p with
    | Ptr.ext c => c
    | _ => none

/-- The call `this->eq(p, q)`. -/
def callEq (e : AListEq α) (p q : Ptr α) : Bool :=
  e.eq (loadVia e.list p) (loadVia e.list q)

/-- The function `AListEq_get`. -/
def AListEq_get (this : Option (AListEq α)) (index : Int) : Ptr α :=
  match this with
  | none => Ptr.null
  | some e => AList_get e.list index

/-- The function `AListEq_size`: on a `NULL` handle it returns 1. -/
def AListEq_size (this : Option (AListEq α)) : Int :=
  match this with
  | none => 1
  | some e => AList_size e.list

/-- The function `AListEq_remove`. -/
def AListEq_remove (this : Option (AListEq α)) (index : Int) : Int × Option (AListEq α) :=
  match this with
  | none => (1, none)
  | some e => ((AList_remove e.list index).1, some { e with list := (AList_remove e.list index).2 })

/-- The loop of `AListEq_firstIndexOf`, `for (i = 0; i < AListEq_size(this); i++)`, run for at
most `fuel` iterations; yields the value the function returns. -/
def AListEq_firstIndexOf_loop (e : AListEq α) (valuePointer : Ptr α) : Nat → Int → Int
  | 0, _ => -1
  | fuel + 1, i =>
    if i < AListEq_size (some e) then
      if callEq e (AListEq_get (some e) i) valuePointer then i
      else AListEq_firstIndexOf_loop e valuePointer fuel (i + 1)
    else -1

/-- The function `AListEq_firstIndexOf`. The loop gets `size` units of fuel, the largest number
of its iterations (`AListEq_firstIndexOf_loop_fuel`: more fuel changes nothing). -/
def AListEq_firstIndexOf (this : Option (AListEq α)) (valuePointer : Ptr α) : Int :=
  match this with
  | none => -1
  | some e => AListEq_firstIndexOf_loop e valuePointer (AListEq_size (some e)).toNat 0

/-- The function `AListEq_contains`. Its return type is `bool`: the `return -1` on a `NULL`
handle is converted to `true`, as every nonzero value is. -/
def AListEq_contains (this : Option (AListEq α)) (valuePointer : Ptr α) : Bool :=
  match this with
  | none => decide ((-1 : Int) ≠ 0)
  | some e => decide (AListEq_firstIndexOf (some e) valuePointer ≥ 0)

/-- The loop of `AListEq_lastIndexOf`, `for (i = AListEq_size(this) - 1; i >= 0; i--)`, run for
at most `fuel` iterations; yields the value the function returns. -/
def AListEq_lastIndexOf_loop (e : AListEq α) (valuePointer : Ptr α) : Nat → Int → Int
  | 0, _ => -1
  | fuel + 1, i =>
    if i ≥ 0 then
      if callEq e (AListEq_get (some e) i) valuePointer then i
      else AListEq_lastIndexOf_loop e valuePointer fuel (i - 1)
    else -1

/-- The function `AListEq_lastIndexOf`. The loop gets `size` units of fuel, the largest number
of its iterations (`AListEq_lastIndexOf_loop_fuel`: more fuel changes nothing). -/
def AListEq_lastIndexOf (this : Option (AListEq α)) (valuePointer : Ptr α) : Int :=
  match this with
  | none => -1
  | some e =>
    AListEq_lastIndexOf_loop e valuePointer (AListEq_size (some e)).toNat
      (AListEq_size (some e) - 1)

/-- The loop of `AListEq_removeAll`, `while (i < AListEq_size(this))`, with the variables `i`
and `anyRemoved`; `none` when the loop is still running after `fuel` iterations, otherwise
`anyRemoved` and the struct at the exit of the loop. -/
def AListEq_removeAll_loop (valuePointer : Ptr α) :
    Nat → AListEq α → Int → Bool → Option (Bool × AListEq α)
  | 0, e, i, anyRemoved => if i < AListEq_size (some e) then none else some (anyRemoved, e)
  | fuel + 1, e, i, anyRemoved =>
    if i < AListEq_size (some e) then
      if callEq e (AListEq_get (some e) i) valuePointer then
        AListEq_removeAll_loop valuePointer fuel ((AListEq_remove (some e) i).2.getD e) i true
      else AListEq_removeAll_loop valuePointer fuel e (i + 1) anyRemoved
    else some (anyRemoved, e)

/-- The function `AListEq_removeAll` with its loop allowed `fuel` iterations: `none` when the
loop needs more, otherwise the returned value and the struct after the call. -/
def AListEq_removeAll (fuel : Nat) (this : Option (AListEq α)) (valuePointer : Ptr α) :
    Option (Bool × Option (AListEq α)) :=
  match this with
  | none => some (false, none)
  | some e =>
    match AListEq_removeAll_loop valuePointer fuel e 0 false with
    | none => none
    | some r => some (r.1, some r.2)

/-- The function `AListEq_removeFirst`. -/
def AListEq_removeFirst (this : Option (AListEq α)) (valuePointer : Ptr α) :
    Bool × Option (AListEq α) :=
  match this with
  | none => (false, none)
  | some e =>
    if AListEq_firstIndexOf (some e) valuePointer = -1 then (false, some e)
    else (true, (AListEq_remove (some e) (AListEq_firstIndexOf (some e) valuePointer)).2)

/-- The function `AListEq_removeLast`. -/
def AListEq_removeLast (this : Option (AListEq α)) (valuePointer : Ptr α) :
    Bool × Option (AListEq α) :=
  match this with
  | none => (false, none)
  | some e =>
    if AListEq_lastIndexOf (some e) valuePointer = -1 then (false, some e)
    else (true, (AListEq_remove (some e) (AListEq_lastIndexOf (some e) valuePointer)).2)

/-- The predicate of the examples: the two cells hold the same bytes. -/
def sameCell (a b : Option Nat) : Bool := a == b

/-- The list `[7, 8, 7, 9]` (the `[a, b, a, c]` of the specification). -/
def exABACList : AList Nat :=
  { content := [some 7, some 8, some 7, some 9], cellSize := 4, capacity := 4, length := 4,
    ub := false }

/-- The container `[7, 8, 7, 9]` with the predicate `sameCell`. -/
def exABAC : AListEq Nat := { list := some exABACList, eq := sameCell }

/-- The list `[7, 8, 7, 9, 7]` (the `[a, b, a, c, a]` of the specification) in a block of eight
cells. -/
def exABACAList : AList Nat :=
  { content := [some 7, some 8, some 7, some 9, some 7, none, none, none], cellSize := 4,
    capacity := 8, length := 5, ub := false }

/-- The container `[7, 8, 7, 9, 7]` with the predicate `sameCell`. -/
def exABACA : AListEq Nat := { list := some exABACAList, eq := sameCell }

/-! ## Auxiliary lemmas -/

theorem wrapInt_eq {x : Int} (h1 : -2147483648 ≤ x) (h2 : x ≤ 2147483647) : wrapInt x = x := by
  unfold wrapInt; omega


@[simp] theorem setCell_content (l : AList α) (k : Nat) (c : Option α) :
    (setCell l k c).content = l.content.set k c := rfl
@[simp] theorem setCell_length (l : AList α) (k : Nat) (c : Option α) :
    (setCell l k c).length = l.length := rfl
@[simp] theorem setCell_capacity (l : AList α) (k : Nat) (c : Option α) :
    (setCell l k c).capacity = l.capacity := rfl
@[simp] theorem setCell_cellSize (l : AList α) (k : Nat) (c : Option α) :
    (setCell l k c).cellSize = l.cellSize := rfl
@[simp] theorem setCell_ub (l : AList α) (k : Nat) (c : Option α) :
    (setCell l k c).ub = l.ub := rfl

theorem inBlock_natCast (l : AList α) (k : Nat) :
    inBlock l (k : Int) = decide (k < l.content.length) := by
  simp [inBlock]

theorem load_cell_natCast (l : AList α) (k : Nat) (h : k < l.content.length) :
    load l (Ptr.cell (k : Int)) = (l.content[k]?).getD none := by
  simp [load, inBlock, h]

theorem AList_get_natCast (l : AList α) (k : Nat) (h : (k : Int) < l.length) :
    AList_get (some l) (k : Int) = Ptr.cell (k : Int) := by
  have : ¬ ((k : Int) ≥ l.length) := by omega
  simp [AList_get, this]

/-- An in-range `AList_set` whose source is readable and whose cell is allocated overwrites
that cell. -/
theorem AList_set_cell (l : AList α) (k : Nat) (p : Ptr α)
    (hk : (k : Int) < l.length) (hb : k < l.content.length) (hp : readable l p = true) :
    AList_set (some l) (k : Int) p = (0, some (setCell l k (load l p))) := by
  have h1 : ¬ ((k : Int) < 0 ∨ (k : Int) ≥ l.length) := by omega
  have h2 : ¬ ((k : Int) ≥ l.length) := by omega
  simp [AList_set, AList_get, h1, h2, memcpyToList, inBlock, hb, hp, setCell]

theorem AList_remove_loop_spec (n : Nat) : ∀ (l : AList α) (k : Nat),
    l.length ≤ (l.content.length : Int) →
    (AList_remove_loop n l (k : Int)).ub = l.ub ∧
    (AList_remove_loop n l (k : Int)).length = l.length ∧
    (AList_remove_loop n l (k : Int)).capacity = l.capacity ∧
    (AList_remove_loop n l (k : Int)).cellSize = l.cellSize ∧
    (AList_remove_loop n l (k : Int)).content.length = l.content.length ∧
    ∀ j : Nat, (AList_remove_loop n l (k : Int)).content[j]? =
      if k ≤ j ∧ j < k + n ∧ (j : Int) + 1 < l.length then l.content[j + 1]? else l.content[j]? := by
  induction n with
  | zero =>
    intro l k _
    refine ⟨rfl, rfl, rfl, rfl, rfl, ?_⟩
    intro j
    have : ¬ (k ≤ j ∧ j < k + 0 ∧ (j : Int) + 1 < l.length) := by omega
    rw [if_neg this]; rfl
  | succ n ih =>
    intro l k hlen
    by_cases hc : (k : Int) < l.length - 1
    · have hk1 : k + 1 < l.content.length := by omega
      have hget : AList_get (some l) ((k : Int) + 1) = Ptr.cell ((k + 1 : Nat) : Int) := by
        have := AList_get_natCast l (k + 1) (by push_cast; omega)
        simpa using this
      have hrd : readable l (Ptr.cell ((k + 1 : Nat) : Int)) = true := by
        simp only [readable, inBlock_natCast]; simpa using hk1
      have hset := AList_set_cell l k (Ptr.cell ((k + 1 : Nat) : Int)) (by omega) (by omega) hrd
      have hstep : AList_remove_loop (n + 1) l (k : Int) =
          AList_remove_loop n (setCell l k (load l (Ptr.cell ((k + 1 : Nat) : Int))))
            ((k + 1 : Nat) : Int) := by
        rw [AList_remove_loop]
        simp only [hc, if_true, hget, hset]
        rfl
      rw [hstep]
      obtain ⟨h1, h2, h3, h4, h5, h6⟩ := ih
        (setCell l k (load l (Ptr.cell ((k + 1 : Nat) : Int)))) (k + 1)
        (by simpa using hlen)
      refine ⟨h1, h2, h3, h4, by simpa using h5, ?_⟩
      intro j
      rw [h6 j]
      simp only [setCell_content, setCell_length, List.getElem?_set]
      rw [load_cell_natCast l (k + 1) hk1]
      by_cases hj : j = k
      · subst hj
        have : j + 1 < l.content.length := hk1
        have ha : j < l.content.length := by omega
        have hb : (j : Int) + 1 < l.length := by omega
        simp [this, ha, hb]
      · split_ifs <;> first | rfl | omega
    · have hstep : AList_remove_loop (n + 1) l (k : Int) = l := by
        rw [AList_remove_loop]; simp [hc]
      rw [hstep]
      refine ⟨rfl, rfl, rfl, rfl, rfl, ?_⟩
      intro j
      have : ¬ (k ≤ j ∧ j < k + (n + 1) ∧ (j : Int) + 1 < l.length) := by omega
      simp [this]

theorem deref_natCast (l : AList α) (k : Nat) (hk : (k : Int) < l.length)
    (hb : l.length ≤ (l.content.length : Int)) :
    deref l (k : Int) = (l.content[k]?).getD none := by
  rw [deref, AList_get_natCast l k hk, load_cell_natCast l k (by omega)]

theorem elems_getElem? (l : AList α) (j : Nat) :
    (elems l)[j]? = if (j : Int) < l.length then l.content[j]? else none := by
  rw [elems, List.getElem?_take]
  by_cases h : (j : Int) < l.length
  · rw [if_pos h, if_pos (by omega)]
  · rw [if_neg h, if_neg (by omega)]

/-- What `AList_remove` computes on a container whose elements all lie in the block. -/
theorem AList_remove_eq (l : AList α) (k : Nat) (hk : (k : Int) < l.length)
    (hlen : l.length ≤ (l.content.length : Int)) (hmax : l.length ≤ INT_MAX) :
    ∃ l1 : AList α, AList_remove (some l) (k : Int) = (0, some l1) ∧
      l1.length = l.length - 1 ∧ l1.capacity = l.capacity ∧ l1.cellSize = l.cellSize ∧
      l1.ub = l.ub ∧ l1.content.length = l.content.length ∧
      ∀ j : Nat, l1.content[j]? =
        if k ≤ j ∧ (j : Int) + 1 < l.length then l.content[j + 1]? else l.content[j]? := by
  obtain ⟨h1, h2, h3, h4, h5, h6⟩ :=
    AList_remove_loop_spec (l.length - (k : Int)).toNat l k hlen
  have hg : ¬ ((k : Int) < 0 ∨ (k : Int) ≥ l.length) := by omega
  have hw : wrapInt (l.length - 1) = l.length - 1 := by
    apply wrapInt_eq <;> simp only [INT_MAX] at hmax <;> omega
  refine ⟨{ AList_remove_loop (l.length - (k : Int)).toNat l k with
            length := wrapInt ((AList_remove_loop (l.length - (k : Int)).toNat l k).length - 1) },
    ?_, ?_, h3, h4, h1, h5, ?_⟩
  · simp [AList_remove, hg]
  · show wrapInt _ = _
    rw [h2, hw]
  · intro j
    show (AList_remove_loop (l.length - (k : Int)).toNat l k).content[j]? = _
    rw [h6 j]
    by_cases hj : k ≤ j ∧ (j : Int) + 1 < l.length
    · rw [if_pos hj, if_pos (by omega)]
    · rw [if_neg hj, if_neg (by omega)]

/-- An in-range `AList_remove` on a valid container returns 0 and erases the element at the
index; the capacity is kept and the container stays valid. -/
theorem AList_remove_spec (l : AList α) (i : Int) (hv : Valid l) (h0 : 0 ≤ i)
    (hi : i < l.length) :
    ∃ l1 : AList α, AList_remove (some l) i = (0, some l1) ∧
      l1.length = l.length - 1 ∧ l1.capacity = l.capacity ∧ Valid l1 ∧
      elems l1 = (elems l).eraseIdx i.toNat := by
  obtain ⟨hub, hcap, hl0, hlc, hmax⟩ := hv
  obtain ⟨k, rfl⟩ := Int.eq_ofNat_of_zero_le h0
  obtain ⟨l1, hr, hlen1, hcap1, -, hub1, hclen, hcont⟩ :=
    AList_remove_eq l k hi (by omega) (by omega)
  refine ⟨l1, hr, hlen1, hcap1, ?_, ?_⟩
  · exact ⟨by rw [hub1, hub], by rw [hclen, hcap1, hcap], by omega, by omega, by omega⟩
  · apply List.ext_getElem?
    intro j
    rw [List.getElem?_eraseIdx, elems_getElem?, elems_getElem?, elems_getElem?, hcont j, hlen1]
    simp only [Int.toNat_ofNat, Nat.cast_add, Nat.cast_one]
    split_ifs <;> first | rfl | omega

theorem deref_eq_elems (l : AList α) (j : Nat) (hj : (j : Int) < l.length)
    (hb : l.length ≤ (l.content.length : Int)) :
    deref l (j : Int) = ((elems l)[j]?).getD none := by
  rw [deref_natCast l j hj hb, elems_getElem?, if_pos hj]

theorem memcpyToScratch_ok (l : AList α) (p : Ptr α) (hp : readable l p = true) :
    memcpyToScratch l true p = (l, load l p) := by
  simp [memcpyToScratch, hp]

theorem memcpyToList_cell (l : AList α) (k : Nat) (p : Ptr α) (hb : k < l.content.length)
    (hp : readable l p = true) :
    memcpyToList l (Ptr.cell (k : Int)) p = setCell l k (load l p) := by
  simp [memcpyToList, inBlock, hb, hp, setCell]

/-- The loop of `AList_insert` with both scratch cells allocated and fuel up to the length:
it stores `w` at `k` and moves the cells `k .. length - 1` one place up, the last one into
`new`. -/
theorem AList_insert_loop_spec (n : Nat) : ∀ (l : AList α) (k : Nat) (w : Option α),
    l.length ≤ (l.content.length : Int) → (k : Int) + n = l.length →
    (AList_insert_loop true true n l (k : Int) w).1.ub = l.ub ∧
    (AList_insert_loop true true n l (k : Int) w).1.length = l.length ∧
    (AList_insert_loop true true n l (k : Int) w).1.capacity = l.capacity ∧
    (AList_insert_loop true true n l (k : Int) w).1.cellSize = l.cellSize ∧
    (AList_insert_loop true true n l (k : Int) w).1.content.length = l.content.length ∧
    (∀ j : Nat, (AList_insert_loop true true n l (k : Int) w).1.content[j]? =
      if k ≤ j ∧ (j : Int) < l.length then (if j = k then some w else l.content[j - 1]?)
      else l.content[j]?) ∧
    (AList_insert_loop true true n l (k : Int) w).2 =
      if (k : Int) < l.length then (l.content[l.length.toNat - 1]?).getD none else w := by
  induction n with
  | zero =>
    intro l k w _ hk
    refine ⟨rfl, rfl, rfl, rfl, rfl, ?_, ?_⟩
    · intro j
      rw [if_neg (by omega)]; rfl
    · rw [if_neg (by omega)]; rfl
  | succ n ih =>
    intro l k w hlen hk
    have hkL : (k : Int) < l.length := by omega
    have hkb : k < l.content.length := by omega
    have hget : AList_get (some l) (k : Int) = Ptr.cell (k : Int) := AList_get_natCast l k hkL
    have hrd : readable l (Ptr.cell (k : Int)) = true := by
      simp only [readable, inBlock_natCast]; simpa using hkb
    have hstep : AList_insert_loop true true (n + 1) l (k : Int) w =
        AList_insert_loop true true n (setCell l k w) ((k + 1 : Nat) : Int)
          ((l.content[k]?).getD none) := by
      rw [AList_insert_loop]
      simp only [hkL, if_true, hget, memcpyToScratch_ok l _ hrd]
      simp only [scratchPtr, if_true]
      rw [memcpyToList_cell l k _ hkb (by rfl)]
      rw [memcpyToScratch_ok _ _ (by rfl)]
      have hl := load_cell_natCast l k hkb
      simp only [load] at hl ⊢
      rw [hl]
      push_cast
      rfl
    rw [hstep]
    obtain ⟨h1, h2, h3, h4, h5, h6, h7⟩ := ih (setCell l k w) (k + 1) ((l.content[k]?).getD none)
      (by simpa using hlen) (by simp only [setCell_length]; push_cast; omega)
    refine ⟨h1, h2, h3, h4, by simpa using h5, ?_, ?_⟩
    · intro j
      rw [h6 j]
      simp only [setCell_content, setCell_length, List.getElem?_set]
      have hck : l.content[k]? = some ((l.content[k]?).getD none) := by
        rw [List.getElem?_eq_getElem hkb]; rfl
      by_cases hj : j = k
      · subst hj
        simp [hkL, hkb]
      · by_cases hj1 : j = k + 1
        · subst hj1
          simp only [Nat.add_sub_cancel]
          split_ifs <;> first | rfl | omega | exact hck.symm
        · split_ifs <;> first | rfl | omega
    · rw [h7]
      simp only [setCell_content, setCell_length, List.getElem?_set]
      rw [if_pos hkL]
      by_cases hlast : ((k + 1 : Nat) : Int) < l.length
      · rw [if_pos hlast, if_neg (by omega)]
      · rw [if_neg hlast]
        have : l.length.toNat - 1 = k := by omega
        rw [this]

theorem reallocBlock_length (blk : List (Option α)) (n : Int) :
    (reallocBlock blk n).length = n.toNat := by
  simp only [reallocBlock, List.length_append, List.length_take, List.length_replicate]
  omega

theorem reallocBlock_getElem? (blk : List (Option α)) (n : Int) (_h : (blk.length : Int) ≤ n)
    (j : Nat) (hj : j < blk.length) : (reallocBlock blk n)[j]? = blk[j]? := by
  have h1 : j < (blk.take n.toNat).length := by
    simp only [List.length_take]; omega
  rw [reallocBlock, List.getElem?_append_left h1, List.getElem?_take_of_lt (by omega)]

/-- A successful `AList_add`: there is room, or the capacity is positive, can be doubled and
`realloc` succeeds. The value lands at index `length`, the cells below are kept. -/
theorem AList_add_ok (l : AList α) (c : Option α) (re : Bool) (hv : Valid l)
    (h : AddCanSucceed l re) :
    ∃ l1 : AList α, AList_add (some l) (Ptr.ext c) re = (0, some l1) ∧ Valid l1 ∧
      l1.length = l.length + 1 ∧ l1.cellSize = l.cellSize ∧
      l1.capacity = (if l.length < l.capacity then l.capacity else 2 * l.capacity) ∧
      ∀ j : Nat, (j : Int) < l1.length →
        l1.content[j]? = if (j : Int) = l.length then some c else l.content[j]? := by
  obtain ⟨hub, hcap, hl0, hlc, hmax⟩ := hv
  simp only [AddCanSucceed, INT_MAX] at hmax h
  have hw : wrapInt (l.length + 1) = l.length + 1 := by apply wrapInt_eq <;> omega
  obtain ⟨L, hL⟩ := Int.eq_ofNat_of_zero_le hl0
  by_cases hroom : l.length < l.capacity
  · have hLb : L < l.content.length := by omega
    have hs := AList_set_cell { l with length := l.length + 1 } L (Ptr.ext c)
      (by show (L : Int) < l.length + 1; omega) hLb rfl
    refine ⟨setCell { l with length := l.length + 1 } L c, ?_, ?_, rfl, rfl, ?_, ?_⟩
    · rw [AList_add]
      simp only [hroom, if_true, hw]
      rw [show l.length + 1 - 1 = (L : Int) by omega]
      exact hs
    · refine ⟨hub, ?_, ?_, ?_, ?_⟩
      · show ((l.content.set L c).length : Int) = l.capacity
        rw [List.length_set]; exact hcap
      · show 0 ≤ l.length + 1
        omega
      · show l.length + 1 ≤ l.capacity
        omega
      · show l.capacity ≤ INT_MAX
        simp only [INT_MAX]; omega
    · rw [if_pos hroom]; rfl
    · intro j hj
      show (l.content.set L c)[j]? = _
      rw [List.getElem?_set]
      by_cases hjl : L = j
      · subst hjl
        rw [if_pos rfl, if_pos hLb, if_pos hL.symm]
      · rw [if_neg hjl, if_neg (by omega)]
  · obtain ⟨hpos, hdbl, hre⟩ := h.resolve_left hroom
    subst hre
    have hwc : wrapInt (l.capacity * 2) = 2 * l.capacity := by
      rw [wrapInt_eq] <;> omega
    have hng : ¬ (INT_MAX < 2 * l.capacity) := by simp only [INT_MAX]; omega
    have hrl := reallocBlock_length l.content (2 * l.capacity)
    have hLb : L < (reallocBlock l.content (2 * l.capacity)).length := by
      rw [hrl]; omega
    have hs := AList_set_cell
      { l with capacity := 2 * l.capacity, content := reallocBlock l.content (2 * l.capacity),
               length := l.length + 1 } L (Ptr.ext c)
      (by show (L : Int) < l.length + 1; omega) hLb rfl
    refine ⟨setCell { l with capacity := 2 * l.capacity,
                             content := reallocBlock l.content (2 * l.capacity),
                             length := l.length + 1 } L c, ?_, ?_, rfl, rfl, ?_, ?_⟩
    · rw [AList_add]
      simp only [hroom, if_false, hng, hwc, hw, Bool.not_true, Bool.false_eq_true]
      rw [show l.length + 1 - 1 = (L : Int) by omega]
      exact hs
    · refine ⟨hub, ?_, ?_, ?_, ?_⟩
      · show (((reallocBlock l.content (2 * l.capacity)).set L c).length : Int) = 2 * l.capacity
        rw [List.length_set, hrl]; omega
      · show 0 ≤ l.length + 1
        omega
      · show l.length + 1 ≤ 2 * l.capacity
        omega
      · show 2 * l.capacity ≤ INT_MAX
        simp only [INT_MAX]; omega
    · rw [if_neg hroom]; rfl
    · intro j hj
      have hj' : (j : Int) < l.length + 1 := hj
      show ((reallocBlock l.content (2 * l.capacity)).set L c)[j]? = _
      rw [List.getElem?_set]
      by_cases hjl : L = j
      · subst hjl
        rw [if_pos rfl, if_pos hLb, if_pos hL.symm]
      · rw [if_neg hjl, if_neg (by omega)]
        exact reallocBlock_getElem? l.content _ (by omega) j (by omega)

theorem memcpyToList_ub (l : AList α) (d s : Ptr α) (h : l.ub = true) :
    (memcpyToList l d s).ub = true := by
  unfold memcpyToList
  split
  · split <;> first | exact h | rfl
  · rfl

theorem memcpyToScratch_ub (l : AList α) (ok : Bool) (s : Ptr α) (h : l.ub = true) :
    (memcpyToScratch l ok s).1.ub = true := by
  unfold memcpyToScratch
  split <;> first | exact h | rfl

theorem AList_set_ub (l : AList α) (i : Int) (p : Ptr α) (h : l.ub = true) :
    ubOf (AList_set (some l) i p).2 = true := by
  unfold AList_set
  simp only
  split
  · exact h
  · split
    · exact h
    · exact memcpyToList_ub l _ _ h

theorem AList_add_ub (l : AList α) (p : Ptr α) (re : Bool) (h : l.ub = true) :
    ubOf (AList_add (some l) p re).2 = true := by
  unfold AList_add
  simp only
  split
  · exact AList_set_ub _ _ _ h
  · split
    · exact h
    · split
      · exact h
      · exact AList_set_ub _ _ _ h

theorem AList_insert_loop_ub (a b : Bool) (n : Nat) : ∀ (l : AList α) (i : Int) (w : Option α),
    l.ub = true → (AList_insert_loop a b n l i w).1.ub = true := by
  induction n with
  | zero => intro l i w h; exact h
  | succ n ih =>
    intro l i w h
    rw [AList_insert_loop]
    split
    · apply ih
      apply memcpyToScratch_ub
      apply memcpyToList_ub
      apply memcpyToScratch_ub
      exact h
    · exact h

/-- On a valid container a call of `AList_add` that returns 0 without an access outside the
block had room or could grow. -/
theorem AList_add_succ_inv (l : AList α) (p : Ptr α) (re : Bool) (hv : Valid l)
    (h0 : (AList_add (some l) p re).1 = 0) (hub : ubOf (AList_add (some l) p re).2 = false) :
    AddCanSucceed l re := by
  obtain ⟨-, hcap, hl0, hlc, hmax⟩ := hv
  simp only [INT_MAX] at hmax
  by_cases hroom : l.length < l.capacity
  · exact Or.inl hroom
  · right
    have hLc : l.length = l.capacity := by omega
    by_cases hg : INT_MAX < 2 * l.capacity
    · rw [AList_add] at h0
      simp only [hroom, if_false, hg, if_true] at h0
      exact absurd h0 (by decide)
    · cases re with
      | false =>
        rw [AList_add] at h0
        simp only [hroom, if_false, hg, Bool.not_false, if_true] at h0
        exact absurd h0 (by decide)
      | true =>
        refine ⟨?_, by omega, rfl⟩
        by_contra hc
        have hc0 : l.capacity = 0 := by omega
        have hlen0 : l.content.length = 0 := by omega
        have hnil : l.content = [] := List.length_eq_zero.mp hlen0
        rw [AList_add] at hub
        simp only [hroom, if_false, hg, Bool.not_true, Bool.false_eq_true] at hub
        rw [hLc, hc0, hnil] at hub
        simp [wrapInt, reallocBlock, AList_set, AList_get, memcpyToList, inBlock, ubOf] at hub

theorem getElem?_take_cons_drop {β : Type} (e : List β) (k : Nat) (x : β) (hk : k ≤ e.length)
    (j : Nat) :
    (e.take k ++ x :: e.drop k)[j]? =
      if j < k then e[j]? else if j = k then some x else e[j - 1]? := by
  have hlen : (e.take k).length = k := by
    rw [List.length_take]; omega
  by_cases h1 : j < k
  · rw [if_pos h1, List.getElem?_append_left (by omega), List.getElem?_take_of_lt h1]
  · rw [if_neg h1, List.getElem?_append_right (by omega), hlen]
    by_cases h2 : j = k
    · subst h2
      simp
    · rw [if_neg h2]
      obtain ⟨m, hm⟩ : ∃ m, j - k = m + 1 := ⟨j - k - 1, by omega⟩
      rw [hm, List.getElem?_cons_succ, List.getElem?_drop]
      congr 1
      omega

theorem elems_length (l : AList α) (h0 : 0 ≤ l.length) (hb : l.length ≤ (l.content.length : Int)) :
    ((elems l).length : Int) = l.length := by
  rw [elems, List.length_take]
  omega

/-- The body of `AList_insert` when it can succeed: the scratch cells are allocated (the
second one is not needed for an insert at the end) and the final `AList_add` has room or can
grow. -/
theorem AList_insert_body_ok (l : AList α) (k : Nat) (x : Option α) (b re : Bool)
    (hv : Valid l) (hk : (k : Int) ≤ l.length) (hb : b = true ∨ (k : Int) = l.length)
    (hadd : AddCanSucceed l re) :
    ∃ l1 : AList α, AList_insert_body l (k : Int) (Ptr.ext x) true b re = (0, some l1) ∧
      Valid l1 ∧ l1.length = l.length + 1 ∧ l1.cellSize = l.cellSize ∧
      l1.capacity = (if l.length < l.capacity then l.capacity else 2 * l.capacity) ∧
      elems l1 = (elems l).take k ++ x :: (elems l).drop k := by
  have hv' := hv
  obtain ⟨hub, hcap, hl0, hlc, hmax⟩ := hv
  have hloop : AList_insert_loop true b (l.length - (k : Int)).toNat l (k : Int) x =
      AList_insert_loop true true (l.length - (k : Int)).toNat l (k : Int) x := by
    rcases hb with hb | hb
    · rw [hb]
    · have : (l.length - (k : Int)).toNat = 0 := by omega
      rw [this]; rfl
  obtain ⟨h1, h2, h3, h4, h5, h6, h7⟩ :=
    AList_insert_loop_spec (l.length - (k : Int)).toNat l k x (by omega) (by omega)
  have hbody : AList_insert_body l (k : Int) (Ptr.ext x) true b re =
      AList_add (some (AList_insert_loop true true (l.length - (k : Int)).toNat l (k : Int) x).1)
        (Ptr.ext (AList_insert_loop true true (l.length - (k : Int)).toNat l (k : Int) x).2)
        re := by
    rw [AList_insert_body]
    simp only [memcpyToScratch_ok l (Ptr.ext x) rfl, load, hloop, scratchPtr, if_true]
  have hvr : Valid (AList_insert_loop true true (l.length - (k : Int)).toNat l (k : Int) x).1 :=
    ⟨by rw [h1, hub], by rw [h5, h3, hcap], by rw [h2]; exact hl0, by rw [h2, h3]; exact hlc,
      by rw [h3]; exact hmax⟩
  have haddr : AddCanSucceed
      (AList_insert_loop true true (l.length - (k : Int)).toNat l (k : Int) x).1 re := by
    unfold AddCanSucceed; rw [h2, h3]; exact hadd
  obtain ⟨l1, hr, hv1, hlen1, hcs1, hcap1, hcont1⟩ := AList_add_ok _ _ re hvr haddr
  rw [h2] at hlen1
  rw [h2, h3] at hcap1
  rw [h4] at hcs1
  refine ⟨l1, by rw [hbody, hr], hv1, hlen1, hcs1, hcap1, ?_⟩
  have hel : k ≤ (elems l).length := by
    have := elems_length l hl0 (by omega); omega
  apply List.ext_getElem?
  intro j
  rw [getElem?_take_cons_drop _ _ _ hel, elems_getElem?, elems_getElem?, elems_getElem?, hlen1]
  by_cases hj : (j : Int) < l.length + 1
  · rw [if_pos hj, hcont1 j (by rw [hlen1]; exact hj), h2, h6 j, h7]
    by_cases hjL : (j : Int) = l.length
    · rw [if_pos hjL]
      by_cases hjk : j = k
      · subst hjk
        rw [if_neg (by omega), if_neg (by omega), if_pos rfl]
      · rw [if_pos (by omega), if_neg (by omega), if_neg hjk, if_pos (by omega)]
        have hj1 : l.length.toNat - 1 = j - 1 := by omega
        have hjb : j - 1 < l.content.length := by omega
        rw [hj1, List.getElem?_eq_getElem hjb]
        rfl
    · rw [if_neg hjL]
      split_ifs <;> first | rfl | omega
  · rw [if_neg hj]
    split_ifs <;> first | rfl | omega

/-- On a valid container a successful `AList_insert` had its scratch cells allocated (the second
one unless the insert was at the end) and its final `AList_add` had room or could grow. -/
theorem InsertSucceeded_inv (l : AList α) (i : Int) (x : Option α) (a b re : Bool)
    (hv : Valid l) (hs : InsertSucceeded l i (Ptr.ext x) a b re) :
    a = true ∧ (b = true ∨ i = l.length) ∧ AddCanSucceed l re := by
  obtain ⟨h0, hi, hret, l1, hl1, hub1⟩ := hs
  have hubf : ubOf (AList_insert_body l i (Ptr.ext x) a b re).2 = false := by
    rw [hl1]; exact hub1
  have ha : a = true := by
    cases a with
    | true => rfl
    | false =>
      exfalso
      have : ubOf (AList_insert_body l i (Ptr.ext x) false b re).2 = true := by
        rw [AList_insert_body]
        apply AList_add_ub
        apply AList_insert_loop_ub
        rfl
      rw [this] at hubf
      exact absurd hubf (by decide)
  subst ha
  have hb : b = true ∨ i = l.length := by
    cases b with
    | true => exact Or.inl rfl
    | false =>
      right
      by_contra hne
      have hlt : i < l.length := by omega
      obtain ⟨n, hn⟩ : ∃ n, (l.length - i).toNat = n + 1 := ⟨(l.length - i).toNat - 1, by omega⟩
      have : ubOf (AList_insert_body l i (Ptr.ext x) true false re).2 = true := by
        rw [AList_insert_body]
        apply AList_add_ub
        simp only [memcpyToScratch_ok l (Ptr.ext x) rfl, hn]
        rw [AList_insert_loop]
        simp only [hlt, if_true]
        apply AList_insert_loop_ub
        apply memcpyToScratch_ub
        apply memcpyToList_ub
        simp [memcpyToScratch]
      rw [this] at hubf
      exact absurd hubf (by decide)
  refine ⟨rfl, hb, ?_⟩
  obtain ⟨k, rfl⟩ := Int.eq_ofNat_of_zero_le h0
  obtain ⟨hub, hcap, hl0, hlc, hmax⟩ := hv
  have hloop : AList_insert_loop true b (l.length - (k : Int)).toNat l (k : Int) x =
      AList_insert_loop true true (l.length - (k : Int)).toNat l (k : Int) x := by
    rcases hb with hb | hb
    · rw [hb]
    · have : (l.length - (k : Int)).toNat = 0 := by omega
      rw [this]; rfl
  obtain ⟨h1, h2, h3, h4, h5, -, -⟩ :=
    AList_insert_loop_spec (l.length - (k : Int)).toNat l k x (by omega) (by omega)
  have hbody : AList_insert_body l (k : Int) (Ptr.ext x) true b re =
      AList_add (some (AList_insert_loop true true (l.length - (k : Int)).toNat l (k : Int) x).1)
        (Ptr.ext (AList_insert_loop true true (l.length - (k : Int)).toNat l (k : Int) x).2)
        re := by
    rw [AList_insert_body]
    simp only [memcpyToScratch_ok l (Ptr.ext x) rfl, load, hloop, scratchPtr, if_true]
  have hvr : Valid (AList_insert_loop true true (l.length - (k : Int)).toNat l (k : Int) x).1 :=
    ⟨by rw [h1, hub], by rw [h5, h3, hcap], by rw [h2]; exact hl0, by rw [h2, h3]; exact hlc,
      by rw [h3]; exact hmax⟩
  rw [hbody] at hret hubf
  have := AList_add_succ_inv _ _ re hvr hret hubf
  unfold AddCanSucceed at this ⊢
  rw [h2, h3] at this
  exact this

/-- C2: on a valid container with elements `e_0 .. e_(n-1)`, a successful `AList_insert(i, v)`
with `0 ≤ i ≤ n` leaves the container holding `e_0 .. e_(i-1), v, e_i .. e_(n-1)`: the size is
`n + 1`, the elements before `i` are unchanged, the element at `i` is `v`, and every element
formerly at `j ≥ i` is at `j + 1`. -/
theorem AList_insert_shift (l : AList α) (i : Int) (v : α) (mallocNew mallocNextNew realloc : Bool)
    (hv : Valid l)
    (hs : InsertSucceeded l i (Ptr.ext (some v)) mallocNew mallocNextNew realloc) :
    ∃ l1 : AList α,
      (AList_insert (some l) i (Ptr.ext (some v)) mallocNew mallocNextNew realloc).2 = some l1 ∧
      Valid l1 ∧
      AList_size (some l1) = AList_size (some l) + 1 ∧
      elems l1 = (elems l).take i.toNat ++ some v :: (elems l).drop i.toNat ∧
      (∀ j : Int, 0 ≤ j → j < i → deref l1 j = deref l j) ∧
      deref l1 i = some v ∧
      (∀ j : Int, i ≤ j → j < AList_size (some l) → deref l1 (j + 1) = deref l j) := by
  obtain ⟨ha, hb, hadd⟩ := InsertSucceeded_inv l i (some v) _ _ _ hv hs
  obtain ⟨h0, hi, -⟩ := hs
  subst ha
  obtain ⟨k, rfl⟩ := Int.eq_ofNat_of_zero_le h0
  obtain ⟨l1, hr, hv1, hlen1, -, -, hel⟩ :=
    AList_insert_body_ok l k (some v) mallocNextNew realloc hv hi hb hadd
  obtain ⟨-, hcap, hl0, hlc, -⟩ := hv
  have hb1 : l1.length ≤ (l1.content.length : Int) := by
    obtain ⟨-, hc1, -, hlc1, -⟩ := hv1; omega
  have hkel : k ≤ (elems l).length := by
    have := elems_length l hl0 (by omega); omega
  have hget : ∀ j : Nat, (j : Int) < l.length + 1 → deref l1 (j : Int) =
      ((if j < k then (elems l)[j]? else if j = k then some (some v) else (elems l)[j - 1]?)).getD
        none := by
    intro j hj
    rw [deref_natCast l1 j (by omega) hb1, ← getElem?_take_cons_drop _ _ _ hkel, ← hel,
      elems_getElem?, if_pos (by omega)]
  have hgetl : ∀ j : Nat, (j : Int) < l.length → deref l (j : Int) = ((elems l)[j]?).getD none := by
    intro j hj
    rw [deref_natCast l j hj (by omega), elems_getElem?, if_pos hj]
  have hg : ¬ ((k : Int) < 0 ∨ (k : Int) > l.length) := by omega
  refine ⟨l1, ?_, hv1, ?_, by simpa using hel, ?_, ?_, ?_⟩
  · simp only [AList_insert, hg, if_false, hr]
  · simp [AList_size, hlen1]
  · intro j hj0 hjk
    obtain ⟨m, rfl⟩ := Int.eq_ofNat_of_zero_le hj0
    rw [hget m (by omega), hgetl m (by omega), if_pos (by omega)]
  · rw [hget k (by omega), if_neg (by omega), if_pos rfl]
    rfl
  · intro j hkj hjn
    simp only [AList_size] at hjn
    obtain ⟨m, rfl⟩ := Int.eq_ofNat_of_zero_le (by omega : 0 ≤ j)
    have := hget (m + 1) (by push_cast; omega)
    push_cast at this
    rw [this, hgetl m hjn, if_neg (by omega), if_neg (by omega)]

theorem exFull_insert_succeeded :
    InsertSucceeded exFull 1 (Ptr.ext (some 99)) true true true :=
  ⟨by decide, by decide, by decide, _, rfl, rfl⟩

/-- The insert theorem applied to the full container `exFull = [1, 2]`, index 1, value 99, with
all allocations succeeding (the insert grows the block). -/
theorem AList_insert_shift_witness :
    Valid exFull ∧ InsertSucceeded exFull 1 (Ptr.ext (some 99)) true true true ∧
    ∃ l1 : AList Nat,
      (AList_insert (some exFull) 1 (Ptr.ext (some 99)) true true true).2 = some l1 ∧
      Valid l1 ∧
      AList_size (some l1) = AList_size (some exFull) + 1 ∧
      elems l1 = (elems exFull).take (1 : Int).toNat ++ some 99 :: (elems exFull).drop (1 : Int).toNat ∧
      (∀ j : Int, 0 ≤ j → j < 1 → deref l1 j = deref exFull j) ∧
      deref l1 1 = some 99 ∧
      (∀ j : Int, 1 ≤ j → j < AList_size (some exFull) → deref l1 (j + 1) = deref exFull j) :=
  ⟨by decide, exFull_insert_succeeded,
    AList_insert_shift exFull 1 99 true true true (by decide) exFull_insert_succeeded⟩

theorem eraseIdx_take_cons_drop {β : Type} (e : List β) (k : Nat) (x : β) (hk : k ≤ e.length) :
    (e.take k ++ x :: e.drop k).eraseIdx k = e := by
  apply List.ext_getElem?
  intro j
  rw [List.getElem?_eraseIdx]
  by_cases h : j < k
  · rw [if_pos h, getElem?_take_cons_drop e k x hk, if_pos h]
  · rw [if_neg h, getElem?_take_cons_drop e k x hk, if_neg (by omega), if_neg (by omega)]
    rfl

/-- C3 (shift correctness): on a valid container of length `n`, `AList_remove(i)` with
`0 ≤ i < n` returns 0, the size becomes `n - 1`, every element at `j < i` is unchanged, and for
`i ≤ j < n - 1` the element at `j` is the element that was at `j + 1`; the container stays
valid with the same capacity. -/
theorem AList_remove_shift (l : AList α) (i : Int) (hv : Valid l) (h0 : 0 ≤ i)
    (hi : i < l.length) :
    ∃ l1 : AList α, AList_remove (some l) i = (0, some l1) ∧
      AList_size (some l1) = AList_size (some l) - 1 ∧
      (∀ j : Int, 0 ≤ j → j < i → deref l1 j = deref l j) ∧
      (∀ j : Int, i ≤ j → j < AList_size (some l1) → deref l1 j = deref l (j + 1)) ∧
      elems l1 = (elems l).eraseIdx i.toNat ∧
      l1.capacity = l.capacity ∧ Valid l1 := by
  obtain ⟨l1, hr, hlen1, hcap1, hv1, hel⟩ := AList_remove_spec l i hv h0 hi
  obtain ⟨-, hcap, -, hlc, -⟩ := hv
  have ⟨_, hc1, _, hlc1, _⟩ := hv1
  refine ⟨l1, hr, by simp [AList_size, hlen1], ?_, ?_, hel, hcap1, hv1⟩
  · intro j hj0 hjk
    obtain ⟨m, rfl⟩ := Int.eq_ofNat_of_zero_le hj0
    rw [deref_eq_elems l1 m (by omega) (by omega), deref_eq_elems l m (by omega) (by omega),
      hel, List.getElem?_eraseIdx, if_pos (by omega)]
  · intro j hij hjn
    simp only [AList_size] at hjn
    obtain ⟨m, rfl⟩ := Int.eq_ofNat_of_zero_le (by omega : 0 ≤ j)
    have h2 := deref_eq_elems l (m + 1) (by push_cast; omega) (by omega)
    push_cast at h2
    rw [deref_eq_elems l1 m hjn (by omega), h2, hel, List.getElem?_eraseIdx,
      if_neg (by omega)]

/-- The shift theorem applied to `exList = [10, 20, 30]` and index 1. -/
theorem AList_remove_shift_witness :
    Valid exList ∧ (0 : Int) ≤ 1 ∧ (1 : Int) < exList.length ∧
    ∃ l1 : AList Nat, AList_remove (some exList) 1 = (0, some l1) ∧
      AList_size (some l1) = AList_size (some exList) - 1 ∧
      (∀ j : Int, 0 ≤ j → j < 1 → deref l1 j = deref exList j) ∧
      (∀ j : Int, 1 ≤ j → j < AList_size (some l1) → deref l1 j = deref exList (j + 1)) ∧
      elems l1 = (elems exList).eraseIdx (1 : Int).toNat ∧
      l1.capacity = exList.capacity ∧ Valid l1 :=
  ⟨by decide, by decide, by decide, AList_remove_shift exList 1 (by decide) (by decide) (by decide)⟩

/-- C4, as stated, fails: on the full container `exFull = [1, 2]`, `AList_insert(0, 9)` whose
growth fails (here `realloc` fails) followed by `AList_remove(0)` leaves `[1]`, of size 1. -/
theorem insert_remove_inverse_counterexample :
    Valid exFull ∧ (0 : Int) ≤ 0 ∧ (0 : Int) ≤ AList_size (some exFull) ∧
    AList_size (some exFull) = 2 ∧ elems exFull = [some 1, some 2] ∧
    AList_size
      (AList_remove (AList_insert (some exFull) 0 (Ptr.ext (some 9)) true true false).2 0).2 = 1 ∧
    AList_size
      (AList_remove (AList_insert (some exFull) 0 (Ptr.ext (some 9)) true true false).2 0).2 ≠
        AList_size (some exFull) ∧
    (AList_remove (AList_insert (some exFull) 0 (Ptr.ext (some 9)) true true false).2 0).2 =
      some { content := [some 1, some 1], cellSize := 4, capacity := 4, length := 1, ub := false } := by
  decide

/-- C4 (amended): on a valid container `S`, when `AList_insert(i, v)` succeeds, a following
`AList_remove(i)` returns 0 and yields a container with the same size and the same elements in
the same order as `S`. -/
theorem insert_remove_inverse (l : AList α) (i : Int) (v : α)
    (mallocNew mallocNextNew realloc : Bool) (hv : Valid l)
    (hs : InsertSucceeded l i (Ptr.ext (some v)) mallocNew mallocNextNew realloc) :
    ∃ l2 : AList α,
      AList_remove (AList_insert (some l) i (Ptr.ext (some v)) mallocNew mallocNextNew realloc).2 i
        = (0, some l2) ∧
      AList_size (some l2) = AList_size (some l) ∧
      elems l2 = elems l ∧
      (∀ j : Int, 0 ≤ j → j < AList_size (some l) → deref l2 j = deref l j) ∧
      Valid l2 := by
  obtain ⟨ha, hb, hadd⟩ := InsertSucceeded_inv l i (some v) _ _ _ hv hs
  obtain ⟨h0, hi, -⟩ := hs
  subst ha
  obtain ⟨k, rfl⟩ := Int.eq_ofNat_of_zero_le h0
  obtain ⟨l1, hr, hv1, hlen1, -, -, hel⟩ :=
    AList_insert_body_ok l k (some v) mallocNextNew realloc hv hi hb hadd
  obtain ⟨l2, hr2, hlen2, -, hv2, hel2⟩ :=
    AList_remove_spec l1 (k : Int) hv1 h0 (by omega)
  obtain ⟨-, hcap, hl0, hlc, -⟩ := hv
  have hkel : k ≤ (elems l).length := by
    have := elems_length l hl0 (by omega); omega
  have hg : ¬ ((k : Int) < 0 ∨ (k : Int) > l.length) := by omega
  have hins : (AList_insert (some l) (k : Int) (Ptr.ext (some v)) true mallocNextNew realloc).2
      = some l1 := by
    simp only [AList_insert, hg, if_false, hr]
  have hsize : AList_size (some l2) = AList_size (some l) := by
    simp [AList_size, hlen2, hlen1]
  have hel2' : elems l2 = elems l := by
    rw [hel2, hel, Int.toNat_ofNat, eraseIdx_take_cons_drop _ _ _ hkel]
  refine ⟨l2, by rw [hins, hr2], hsize, hel2', ?_, hv2⟩
  intro j hj0 hjn
  obtain ⟨m, rfl⟩ := Int.eq_ofNat_of_zero_le hj0
  simp only [AList_size] at hsize hjn
  obtain ⟨-, hc2, -, hlc2, -⟩ := hv2
  rw [deref_eq_elems l2 m (by omega) (by omega), deref_eq_elems l m hjn (by omega), hel2']

/-- The amended inverse property applied to `exFull = [1, 2]`, index 1, value 99, all
allocations succeeding. -/
theorem insert_remove_inverse_witness :
    Valid exFull ∧ InsertSucceeded exFull 1 (Ptr.ext (some 99)) true true true ∧
    ∃ l2 : AList Nat,
      AList_remove (AList_insert (some exFull) 1 (Ptr.ext (some 99)) true true true).2 1
        = (0, some l2) ∧
      AList_size (some l2) = AList_size (some exFull) ∧
      elems l2 = elems exFull ∧
      (∀ j : Int, 0 ≤ j → j < AList_size (some exFull) → deref l2 j = deref exFull j) ∧
      Valid l2 :=
  ⟨by decide, exFull_insert_succeeded,
    insert_remove_inverse exFull 1 99 true true true (by decide) exFull_insert_succeeded⟩

/-- C5 (bounds enforcement): on every container, `AList_get` with `index ≥ size` returns `NULL`;
`AList_set` and `AList_remove` with `index ≥ size` or `index < 0` return 1 and leave the struct
(capacity, length and all cells) unchanged; `AList_insert` with `index > size` or `index < 0`
returns 1 and leaves the struct unchanged, while with `index = size` (and its scratch cell
allocated) it is not rejected and leaves the struct that `AList_add` of the same value leaves. -/
theorem bounds_enforcement (l : AList α) (i : Int) (p : Ptr α) (x : Option α)
    (mallocNew mallocNextNew realloc : Bool) :
    (i ≥ AList_size (some l) → AList_get (some l) i = Ptr.null) ∧
    (i ≥ AList_size (some l) ∨ i < 0 → AList_set (some l) i p = (1, some l)) ∧
    (i ≥ AList_size (some l) ∨ i < 0 → AList_remove (some l) i = (1, some l)) ∧
    (i > AList_size (some l) ∨ i < 0 →
      AList_insert (some l) i p mallocNew mallocNextNew realloc = (some 1, some l)) ∧
    (i = AList_size (some l) → 0 ≤ i →
      (AList_insert (some l) i (Ptr.ext x) true mallocNextNew realloc).1 ≠ some 1 ∧
      (AList_insert (some l) i (Ptr.ext x) true mallocNextNew realloc).2 =
        (AList_add (some l) (Ptr.ext x) realloc).2) := by
  simp only [AList_size]
  refine ⟨?_, ?_, ?_, ?_, ?_⟩
  · intro h
    simp only [AList_get, h, if_true]
  · intro h
    have h' : i < 0 ∨ i ≥ l.length := h.symm
    simp only [AList_set, h', if_true]
  · intro h
    have h' : i < 0 ∨ i ≥ l.length := h.symm
    simp only [AList_remove, h', if_true]
  · intro h
    have h' : i < 0 ∨ i > l.length := h.symm
    simp only [AList_insert, h', if_true]
  · intro h h0
    subst h
    have hg : ¬ (l.length < 0 ∨ l.length > l.length) := by omega
    have hfuel : (l.length - l.length).toNat = 0 := by omega
    simp only [AList_insert, hg, if_false, AList_insert_body, memcpyToScratch_ok l (Ptr.ext x) rfl,
      hfuel, AList_insert_loop, scratchPtr, if_true, load]
    exact ⟨by simp, trivial⟩

/-- The bounds theorem applied to `exList = [10, 20, 30]`: indices 3, -1 and 4 are rejected by
`get`/`set`/`remove` and (4, -1) by `insert`, and an insert at index 3 is the append. -/
theorem bounds_enforcement_witness :
    AList_get (some exList) 3 = Ptr.null ∧
    AList_set (some exList) 3 (Ptr.ext (some 7)) = (1, some exList) ∧
    AList_set (some exList) (-1) (Ptr.ext (some 7)) = (1, some exList) ∧
    AList_remove (some exList) 3 = (1, some exList) ∧
    AList_remove (some exList) (-1) = (1, some exList) ∧
    AList_insert (some exList) 4 (Ptr.ext (some 7)) true true true = (some 1, some exList) ∧
    AList_insert (some exList) (-1) (Ptr.ext (some 7)) true true true = (some 1, some exList) ∧
    (AList_insert (some exList) 3 (Ptr.ext (some 7)) true true true).2 =
      (AList_add (some exList) (Ptr.ext (some 7)) true).2 :=
  ⟨(bounds_enforcement exList 3 (Ptr.ext (some 7)) (some 7) true true true).1 (by decide),
   (bounds_enforcement exList 3 (Ptr.ext (some 7)) (some 7) true true true).2.1
     (Or.inl (by decide)),
   (bounds_enforcement exList (-1) (Ptr.ext (some 7)) (some 7) true true true).2.1
     (Or.inr (by decide)),
   (bounds_enforcement exList 3 (Ptr.ext (some 7)) (some 7) true true true).2.2.1
     (Or.inl (by decide)),
   (bounds_enforcement exList (-1) (Ptr.ext (some 7)) (some 7) true true true).2.2.1
     (Or.inr (by decide)),
   (bounds_enforcement exList 4 (Ptr.ext (some 7)) (some 7) true true true).2.2.2.1
     (Or.inl (by decide)),
   (bounds_enforcement exList (-1) (Ptr.ext (some 7)) (some 7) true true true).2.2.2.1
     (Or.inr (by decide)),
   ((bounds_enforcement exList 3 (Ptr.ext (some 7)) (some 7) true true true).2.2.2.2
     (by decide) (by decide)).2⟩

/-- C6 (allocation failure safety): on a container with `length = capacity`, an `AList_add`
whose `realloc` fails returns 1, leaves the size as it was, and `AList_get(i)` yields the same
pointer and the same element as before for every `0 ≤ i < size`; the block is untouched. -/
theorem AList_add_realloc_failure (l : AList α) (p : Ptr α) (hv : Valid l)
    (hfull : l.length = l.capacity) :
    ∃ l1 : AList α, AList_add (some l) p false = (1, some l1) ∧
      AList_size (some l1) = AList_size (some l) ∧
      (∀ i : Int, 0 ≤ i → i < AList_size (some l) →
        AList_get (some l1) i = AList_get (some l) i ∧ deref l1 i = deref l i) ∧
      elems l1 = elems l ∧ l1.content = l.content ∧ l1.ub = false := by
  have hroom : ¬ (l.length < l.capacity) := by omega
  by_cases hg : INT_MAX < 2 * l.capacity
  · refine ⟨l, ?_, rfl, fun i _ _ => ⟨rfl, rfl⟩, rfl, rfl, hv.1⟩
    rw [AList_add]
    simp only [hroom, if_false, hg, if_true]
  · refine ⟨{ l with capacity := wrapInt (l.capacity * 2) }, ?_, rfl, fun i _ _ => ⟨rfl, rfl⟩,
      rfl, rfl, hv.1⟩
    rw [AList_add]
    simp only [hroom, if_false, hg, Bool.not_false, if_true]

/-- The failure theorem applied to the full container `exFull = [1, 2]`. -/
theorem AList_add_realloc_failure_witness :
    Valid exFull ∧ exFull.length = exFull.capacity ∧
    ∃ l1 : AList Nat, AList_add (some exFull) (Ptr.ext (some 3)) false = (1, some l1) ∧
      AList_size (some l1) = AList_size (some exFull) ∧
      (∀ i : Int, 0 ≤ i → i < AList_size (some exFull) →
        AList_get (some l1) i = AList_get (some exFull) i ∧ deref l1 i = deref exFull i) ∧
      elems l1 = elems exFull ∧ l1.content = exFull.content ∧ l1.ub = false :=
  ⟨by decide, by decide,
    AList_add_realloc_failure exFull (Ptr.ext (some 3)) (by decide) (by decide)⟩

/-- C7 at the failing input: on the full container `exFull = [1, 2]` (capacity 2, two cells
allocated) an `AList_add` whose `realloc` fails returns 1 and leaves `capacity = 4` with still
two cells allocated; the next `AList_add` then takes the branch `length < capacity` and writes
cell 2, outside the block, whereas on the container before the failed call the same add grows
the block and stores the value. -/
theorem AList_add_failure_changes_capacity :
    Valid exFull ∧
    AList_add (some exFull) (Ptr.ext (some 3)) false =
      (1, some { content := [some 1, some 2], cellSize := 4, capacity := 4, length := 2,
                 ub := false }) ∧
    ¬ Valid ({ content := [some 1, some 2], cellSize := 4, capacity := 4, length := 2,
               ub := false } : AList Nat) ∧
    AList_add (AList_add (some exFull) (Ptr.ext (some 3)) false).2 (Ptr.ext (some 3)) true =
      (0, some { content := [some 1, some 2], cellSize := 4, capacity := 4, length := 3,
                 ub := true }) ∧
    AList_add (some exFull) (Ptr.ext (some 3)) true =
      (0, some { content := [some 1, some 2, some 3, none], cellSize := 4, capacity := 4,
                 length := 3, ub := false }) := by
  decide

/-- C8 at the failing input: on the full container `exFull = [1, 2]`, `AList_insert(0, 9)`
whose growth fails (`realloc` fails) leaves the elements `[9, 1]`: the loop has already shifted
the cells when `AList_add` fails, and the last element, 2, is lost. -/
theorem AList_insert_failure_corrupts :
    Valid exFull ∧ exFull.length = exFull.capacity ∧ elems exFull = [some 1, some 2] ∧
    (AList_insert_body exFull 0 (Ptr.ext (some 9)) true true false).1 = 1 ∧
    AList_insert (some exFull) 0 (Ptr.ext (some 9)) true true false =
      (none, some { content := [some 9, some 1], cellSize := 4, capacity := 4, length := 2,
                    ub := false }) ∧
    elems ({ content := [some 9, some 1], cellSize := 4, capacity := 4, length := 2,
             ub := false } : AList Nat) = [some 9, some 1] := by
  decide

/-- C9 at the failing input: `AList_new(4, 0)` succeeds with `capacity = 0`; the first
`AList_add` (with `realloc` returning a block) doubles the capacity to 0, increments `length`
to 1 and returns 0 after a write outside the empty block: `length ≤ capacity` fails. -/
theorem capacity_invariant_broken :
    ∃ l0 l1 : AList Nat,
      AList_new 4 0 true true = some l0 ∧
      AList_add (some l0) (Ptr.ext (some 7)) true = (0, some l1) ∧
      l1.length = 1 ∧ l1.capacity = 0 ∧ ¬ (0 ≤ l1.length ∧ l1.length ≤ l1.capacity) :=
  ⟨{ content := [], cellSize := 4, capacity := 0, length := 0, ub := false },
   { content := [], cellSize := 4, capacity := 0, length := 1, ub := true },
   by decide, by decide, by decide, by decide, by decide⟩

/-- C10 at the failing input: a successful `AList_insert(1, 99)` on `exList = [10, 20, 30]`
inserts the value and reaches the end of the function without a `return`: no value is returned.
The same holds for an insert whose growth fails (on the full container `exFull`). -/
theorem AList_insert_returns_nothing :
    InsertSucceeded exList 1 (Ptr.ext (some 99)) true true true ∧
    AList_insert (some exList) 1 (Ptr.ext (some 99)) true true true =
      (none, some { content := [some 10, some 99, some 20, some 30], cellSize := 4,
                    capacity := 4, length := 4, ub := false }) ∧
    (AList_insert_body exFull 0 (Ptr.ext (some 9)) true true false).1 = 1 ∧
    (AList_insert (some exFull) 0 (Ptr.ext (some 9)) true true false).1 = none :=
  ⟨⟨by decide, by decide, by decide, _, rfl, rfl⟩, by decide, by decide, by decide⟩

/-- C1 at the failing input: after `AList_new(4, 0)` the first `AList_add` cannot store its
value. If `realloc` returns a block, the capacity stays 0 and the value is written outside the
block: the call returns 0 with size 1, but `AList_get(0)` points at no cell of the block. If
`realloc` returns `NULL`, the call returns 1 and the size stays 0. -/
theorem growth_from_zero_capacity :
    AList_add (AList_new 4 0 true true : Option (AList Nat)) (Ptr.ext (some 7)) true =
      (0, some { content := [], cellSize := 4, capacity := 0, length := 1, ub := true }) ∧
    deref ({ content := [], cellSize := 4, capacity := 0, length := 1, ub := true } : AList Nat) 0
      = none ∧
    AList_add (AList_new 4 0 true true : Option (AList Nat)) (Ptr.ext (some 7)) false =
      (1, some { content := [], cellSize := 4, capacity := 0, length := 0, ub := false }) ∧
    AList_size (AList_add (AList_new 4 0 true true : Option (AList Nat)) (Ptr.ext (some 7))
      false).2 = 0 := by
  decide

theorem AList_add_ok_elems (l : AList α) (x : Option α) (re : Bool) (hv : Valid l)
    (h : AddCanSucceed l re) :
    ∃ l1 : AList α, AList_add (some l) (Ptr.ext x) re = (0, some l1) ∧ Valid l1 ∧
      l1.length = l.length + 1 ∧ l.capacity ≤ l1.capacity ∧ elems l1 = elems l ++ [x] := by
  obtain ⟨l1, hr, hv1, hlen1, -, hcap1, hcont⟩ := AList_add_ok l x re hv h
  obtain ⟨-, hcap, hl0, hlc, -⟩ := hv
  refine ⟨l1, hr, hv1, hlen1, ?_, ?_⟩
  · rw [hcap1]; split_ifs <;> omega
  · have hel := elems_length l hl0 (by omega)
    apply List.ext_getElem?
    intro j
    rw [elems_getElem?]
    by_cases hj : (j : Int) < l1.length
    · rw [if_pos hj, hcont j hj]
      by_cases hjl : (j : Int) = l.length
      · rw [if_pos hjl, List.getElem?_append_right (by omega)]
        have : j - (elems l).length = 0 := by omega
        rw [this]; rfl
      · rw [if_neg hjl, List.getElem?_append_left (by omega), elems_getElem?, if_pos (by omega)]
    · rw [if_neg hj, List.getElem?_append_right (by omega)]
      have : j - (elems l).length = (j - (elems l).length - 1) + 1 := by omega
      rw [this]; rfl

/-- Appending a sequence of values to a valid container of positive capacity, as long as the
size stays within `2^30`: every add succeeds and the values are stored in order. -/
theorem addAll_spec (vs : List α) : ∀ (l : AList α), Valid l → 0 < l.capacity →
    l.length + (vs.length : Int) ≤ 1073741824 →
    ∃ l1 : AList α, addAll (some l) vs = some l1 ∧ Valid l1 ∧
      l1.length = l.length + vs.length ∧ elems l1 = elems l ++ vs.map some := by
  induction vs with
  | nil =>
    intro l hv _ _
    exact ⟨l, rfl, hv, by simp, by simp⟩
  | cons v vs ih =>
    intro l hv hpos hN
    simp only [List.length_cons, Nat.cast_add, Nat.cast_one] at hN
    have hadd : AddCanSucceed l true := by
      unfold AddCanSucceed
      by_cases hroom : l.length < l.capacity
      · exact Or.inl hroom
      · right
        obtain ⟨-, -, -, hlc, -⟩ := hv
        refine ⟨hpos, ?_, rfl⟩
        simp only [INT_MAX]; omega
    obtain ⟨l1, hr, hv1, hlen1, hcap1, hel1⟩ := AList_add_ok_elems l (some v) true hv hadd
    obtain ⟨l2, hr2, hv2, hlen2, hel2⟩ := ih l1 hv1 (by omega) (by omega)
    refine ⟨l2, ?_, hv2, ?_, ?_⟩
    · rw [addAll, hr]; exact hr2
    · rw [hlen2, hlen1]; simp only [List.length_cons, Nat.cast_add, Nat.cast_one]; omega
    · rw [hel2, hel1]; simp

/-- Growth correctness for a positive initial capacity: after `AList_new(cellSize, c)` with
`1 ≤ c ≤ INT_MAX` and `N ≤ 2^30` calls of `AList_add`, all allocations succeeding, the size is
`N` and `AList_get(i)` yields the `i`-th added value. -/
theorem growth_correct_of_pos_capacity (cellSize : Nat) (c : Int) (vs : List α)
    (hc1 : 1 ≤ c) (hc2 : c ≤ INT_MAX) (hN : vs.length ≤ 1073741824) :
    ∃ l1 : AList α, addAll (AList_new cellSize c true true) vs = some l1 ∧ Valid l1 ∧
      AList_size (some l1) = vs.length ∧
      ∀ i : Nat, i < vs.length → deref l1 (i : Int) = vs[i]? := by
  have hnew : (AList_new cellSize c true true : Option (AList α)) =
      some { content := List.replicate c.toNat none, cellSize := cellSize, capacity := c,
             length := 0, ub := false } := by
    have : ¬ (c < 0) := by omega
    simp [AList_new, this]
  have hv0 : Valid
      ({ content := List.replicate c.toNat none, cellSize := cellSize, capacity := c,
         length := 0, ub := false } : AList α) := by
    refine ⟨rfl, ?_, le_refl _, ?_, hc2⟩
    · show ((List.replicate c.toNat (none : Option α)).length : Int) = c
      rw [List.length_replicate]; omega
    · show (0 : Int) ≤ c
      omega
  obtain ⟨l1, hr, hv1, hlen1, hel1⟩ := addAll_spec vs _ hv0 (by show 0 < c; omega)
    (by show (0 : Int) + _ ≤ _; omega)
  have hlen1' : l1.length = vs.length := by rw [hlen1]; show (0 : Int) + _ = _; omega
  refine ⟨l1, by rw [hnew, hr], hv1, hlen1', ?_⟩
  intro i hi
  obtain ⟨-, hcap1, -, hlc1, -⟩ := hv1
  rw [deref_eq_elems l1 i (by omega) (by omega), hel1]
  have : elems
      ({ content := List.replicate c.toNat none, cellSize := cellSize, capacity := c,
         length := 0, ub := false } : AList α) = [] := by
    simp [elems]
  rw [this, List.nil_append, List.getElem?_map, List.getElem?_eq_getElem hi]
  rfl

theorem memcpyToList_length (l : AList α) (d s : Ptr α) :
    (memcpyToList l d s).length = l.length := by
  unfold memcpyToList
  split
  · split <;> rfl
  · rfl

theorem memcpyToScratch_length (l : AList α) (ok : Bool) (s : Ptr α) :
    (memcpyToScratch l ok s).1.length = l.length := by
  unfold memcpyToScratch
  split <;> rfl

theorem AList_set_length (l : AList α) (i : Int) (p : Ptr α) :
    ∃ l1 : AList α, (AList_set (some l) i p).2 = some l1 ∧ l1.length = l.length := by
  unfold AList_set
  simp only
  split
  · exact ⟨l, rfl, rfl⟩
  · split
    · exact ⟨l, rfl, rfl⟩
    · exact ⟨_, rfl, memcpyToList_length l _ _⟩

/-- The loop of `AList_remove` leaves by its guard: fuel beyond the number of iterations
`length - 1 - i` does not change the result. -/
theorem AList_remove_loop_fuel (n : Nat) : ∀ (l : AList α) (i : Int) (m : Nat),
    (l.length - 1 - i).toNat ≤ n → AList_remove_loop (n + m) l i = AList_remove_loop n l i := by
  induction n with
  | zero =>
    intro l i m h
    have hg : ¬ (i < l.length - 1) := by omega
    cases m with
    | zero => rfl
    | succ m =>
      rw [Nat.zero_add]
      show AList_remove_loop (m + 1) l i = l
      rw [AList_remove_loop, if_neg hg]
  | succ n ih =>
    intro l i m h
    rw [show n + 1 + m = (n + m) + 1 by omega, AList_remove_loop, AList_remove_loop]
    by_cases hg : i < l.length - 1
    · obtain ⟨l1, hl1, hlen⟩ := AList_set_length l i (AList_get (some l) (i + 1))
      simp only [hg, if_true, hl1]
      exact ih l1 (i + 1) m (by rw [hlen]; omega)
    · simp only [hg, if_false]

/-- The loop of `AList_insert` leaves by its guard: fuel beyond the number of iterations
`length - i` does not change the result. -/
theorem AList_insert_loop_fuel (a b : Bool) (n : Nat) :
    ∀ (l : AList α) (i : Int) (w : Option α) (m : Nat), (l.length - i).toNat ≤ n →
      AList_insert_loop a b (n + m) l i w = AList_insert_loop a b n l i w := by
  induction n with
  | zero =>
    intro l i w m h
    have hg : ¬ (i < l.length) := by omega
    cases m with
    | zero => rfl
    | succ m =>
      rw [Nat.zero_add]
      show AList_insert_loop a b (m + 1) l i w = (l, w)
      rw [AList_insert_loop, if_neg hg]
  | succ n ih =>
    intro l i w m h
    rw [show n + 1 + m = (n + m) + 1 by omega, AList_insert_loop, AList_insert_loop]
    by_cases hg : i < l.length
    · simp only [hg, if_true]
      apply ih
      rw [memcpyToScratch_length, memcpyToList_length, memcpyToScratch_length]
      omega
    · simp only [hg, if_false]

theorem memcpyToList_capacity (l : AList α) (d s : Ptr α) :
    (memcpyToList l d s).capacity = l.capacity := by
  unfold memcpyToList
  split
  · split <;> rfl
  · rfl

theorem AList_set_capacity (l : AList α) (i : Int) (p : Ptr α) :
    ∃ l1 : AList α, (AList_set (some l) i p).2 = some l1 ∧ l1.capacity = l.capacity := by
  unfold AList_set
  simp only
  split
  · exact ⟨l, rfl, rfl⟩
  · split
    · exact ⟨l, rfl, rfl⟩
    · exact ⟨_, rfl, memcpyToList_capacity l _ _⟩

/-- C11: on a valid container of length `n`, `AList_set(i, v)` with `0 ≤ i < n` returns 0;
afterwards `AList_get(i)` yields `v`, every element at `j ≠ i` is unchanged, and `length`,
`capacity` and the number of allocated cells are as before (no resizing). -/
theorem AList_set_frame (l : AList α) (i : Int) (v : α) (hv : Valid l) (h0 : 0 ≤ i)
    (hi : i < l.length) :
    ∃ l1 : AList α, AList_set (some l) i (Ptr.ext (some v)) = (0, some l1) ∧
      deref l1 i = some v ∧
      (∀ j : Int, 0 ≤ j → j < AList_size (some l) → j ≠ i → deref l1 j = deref l j) ∧
      AList_size (some l1) = AList_size (some l) ∧
      l1.capacity = l.capacity ∧ l1.content.length = l.content.length ∧ Valid l1 := by
  obtain ⟨hub, hcap, hl0, hlc, hmax⟩ := hv
  obtain ⟨k, rfl⟩ := Int.eq_ofNat_of_zero_le h0
  have hkb : k < l.content.length := by omega
  have hs := AList_set_cell l k (Ptr.ext (some v)) hi hkb rfl
  have hb1 : (setCell l k (some v)).length ≤ ((setCell l k (some v)).content.length : Int) := by
    simp only [setCell_length, setCell_content, List.length_set]; omega
  refine ⟨setCell l k (some v), hs, ?_, ?_, rfl, rfl, by simp, ?_⟩
  · rw [deref_natCast (setCell l k (some v)) k hi hb1]
    simp [hkb]
  · intro j hj0 hjn hne
    simp only [AList_size] at hjn
    obtain ⟨m, rfl⟩ := Int.eq_ofNat_of_zero_le hj0
    have hmk : k ≠ m := by omega
    rw [deref_natCast (setCell l k (some v)) m hjn hb1, deref_natCast l m hjn (by omega)]
    simp only [setCell_content, List.getElem?_set_ne hmk]
  · exact ⟨hub, by simp only [setCell_content, List.length_set]; exact hcap, hl0, hlc, hmax⟩

/-- The set theorem applied to `exList = [10, 20, 30]`, index 1 and value 99. -/
theorem AList_set_frame_witness :
    Valid exList ∧ (0 : Int) ≤ 1 ∧ (1 : Int) < exList.length ∧
    ∃ l1 : AList Nat, AList_set (some exList) 1 (Ptr.ext (some 99)) = (0, some l1) ∧
      deref l1 1 = some 99 ∧
      (∀ j : Int, 0 ≤ j → j < AList_size (some exList) → j ≠ 1 → deref l1 j = deref exList j) ∧
      AList_size (some l1) = AList_size (some exList) ∧
      l1.capacity = exList.capacity ∧ l1.content.length = exList.content.length ∧ Valid l1 :=
  ⟨by decide, by decide, by decide, AList_set_frame exList 1 99 (by decide) (by decide) (by decide)⟩

/-- C18 (overflow guard on doubling): on a valid container with `length = capacity`,
`AList_add` returns 1 and changes nothing whenever `capacity > INT_MAX / 2`; and whatever the
outcome, the capacity afterwards is the old one or exactly twice the old one as an integer, in
which case it is at most `INT_MAX`: the 32-bit `capacity *= 2` never wraps. -/
theorem AList_add_overflow_guard (l : AList α) (p : Ptr α) (re : Bool) (hv : Valid l)
    (hfull : l.length = l.capacity) :
    (l.capacity > INT_MAX / 2 → AList_add (some l) p re = (1, some l)) ∧
    ∃ l1 : AList α, (AList_add (some l) p re).2 = some l1 ∧
      (l1.capacity = l.capacity ∨
        (l.capacity ≤ INT_MAX / 2 ∧ l1.capacity = 2 * l.capacity ∧ l1.capacity ≤ INT_MAX ∧
          wrapInt (l.capacity * 2) = 2 * l.capacity)) := by
  obtain ⟨-, -, hl0, -, hmax⟩ := hv
  have hroom : ¬ (l.length < l.capacity) := by omega
  have hdiv : INT_MAX / 2 = 1073741823 := by decide
  simp only [hdiv]
  simp only [INT_MAX] at hmax
  by_cases hg : INT_MAX < 2 * l.capacity
  · have hadd : AList_add (some l) p re = (1, some l) := by
      rw [AList_add]; simp only [hroom, if_false, hg, if_true]
    exact ⟨fun _ => hadd, l, by rw [hadd], Or.inl rfl⟩
  · have hg' : ¬ (l.capacity > 1073741823) := by simp only [INT_MAX] at hg; omega
    have hw : wrapInt (l.capacity * 2) = 2 * l.capacity := by
      rw [wrapInt_eq] <;> omega
    refine ⟨fun h => absurd h hg', ?_⟩
    cases re with
    | false =>
      refine ⟨{ l with capacity := wrapInt (l.capacity * 2) }, ?_, Or.inr ⟨by omega, hw, ?_, hw⟩⟩
      · rw [AList_add]; simp only [hroom, if_false, hg, Bool.not_false, if_true]
      · show wrapInt (l.capacity * 2) ≤ INT_MAX
        rw [hw]; simp only [INT_MAX]; omega
    | true =>
      have hadd : (AList_add (some l) p true).2 =
          (AList_set (some { l with capacity := wrapInt (l.capacity * 2),
                                    content := reallocBlock l.content (wrapInt (l.capacity * 2)),
                                    length := wrapInt (l.length + 1) })
            (wrapInt (l.length + 1) - 1) p).2 := by
        rw [AList_add]; simp only [hroom, if_false, hg, Bool.not_true, Bool.false_eq_true]
      rw [hadd]
      obtain ⟨l1, hl1, hc1⟩ := AList_set_capacity
        { l with capacity := wrapInt (l.capacity * 2),
                 content := reallocBlock l.content (wrapInt (l.capacity * 2)),
                 length := wrapInt (l.length + 1) } (wrapInt (l.length + 1) - 1) p
      refine ⟨l1, hl1, Or.inr ⟨by omega, ?_, ?_, hw⟩⟩
      · rw [hc1]; exact hw
      · rw [hc1]
        show wrapInt (l.capacity * 2) ≤ INT_MAX
        rw [hw]; simp only [INT_MAX]; omega

/-- The overflow-guard theorem applied to the full container `exFull = [1, 2]`: the capacity
is doubled to 4. -/
theorem AList_add_overflow_guard_witness :
    Valid exFull ∧ exFull.length = exFull.capacity ∧
    ((exFull.capacity > INT_MAX / 2 →
        AList_add (some exFull) (Ptr.ext (some 3)) true = (1, some exFull)) ∧
      ∃ l1 : AList Nat, (AList_add (some exFull) (Ptr.ext (some 3)) true).2 = some l1 ∧
        (l1.capacity = exFull.capacity ∨
          (exFull.capacity ≤ INT_MAX / 2 ∧ l1.capacity = 2 * exFull.capacity ∧
            l1.capacity ≤ INT_MAX ∧ wrapInt (exFull.capacity * 2) = 2 * exFull.capacity))) :=
  ⟨by decide, by decide,
    AList_add_overflow_guard exFull (Ptr.ext (some 3)) true (by decide) (by decide)⟩

theorem callEq_get (l : AList α) (f : Option α → Option α → Bool) (i : Int) (x : Option α) :
    callEq ⟨some l, f⟩ (AListEq_get (some ⟨some l, f⟩) i) (Ptr.ext x) = f (deref l i) x := rfl

theorem AListEq_size_some (l : AList α) (f : Option α → Option α → Bool) :
    AListEq_size (some ⟨some l, f⟩) = l.length := rfl

/-- The loop of `AListEq_firstIndexOf` leaves by its guard or by `return i`: fuel beyond
`size - i` does not change the result. -/
theorem AListEq_firstIndexOf_loop_fuel (e : AListEq α) (p : Ptr α) (n : Nat) :
    ∀ (i : Int) (m : Nat), (AListEq_size (some e) - i).toNat ≤ n →
      AListEq_firstIndexOf_loop e p (n + m) i = AListEq_firstIndexOf_loop e p n i := by
  induction n with
  | zero =>
    intro i m h
    have hg : ¬ (i < AListEq_size (some e)) := by omega
    cases m with
    | zero => rfl
    | succ m =>
      rw [Nat.zero_add]
      show AListEq_firstIndexOf_loop e p (m + 1) i = -1
      rw [AListEq_firstIndexOf_loop, if_neg hg]
  | succ n ih =>
    intro i m h
    rw [show n + 1 + m = (n + m) + 1 by omega, AListEq_firstIndexOf_loop,
      AListEq_firstIndexOf_loop]
    by_cases hg : i < AListEq_size (some e)
    · simp only [hg, if_true]
      split
      · rfl
      · exact ih (i + 1) m (by omega)
    · simp only [hg, if_false]

/-- The result of the loop of `AListEq_firstIndexOf` started at `i ≥ 0` with enough fuel: -1
when no element from `i` on satisfies the predicate, otherwise the lowest index from `i` on
whose element does. -/
theorem AListEq_firstIndexOf_loop_spec (l : AList α) (f : Option α → Option α → Bool)
    (x : Option α) (n : Nat) : ∀ (i : Int), 0 ≤ i → l.length - i ≤ n →
    (AListEq_firstIndexOf_loop ⟨some l, f⟩ (Ptr.ext x) n i = -1 ∧
      ∀ j : Int, i ≤ j → j < l.length → f (deref l j) x = false) ∨
    (i ≤ AListEq_firstIndexOf_loop ⟨some l, f⟩ (Ptr.ext x) n i ∧
      AListEq_firstIndexOf_loop ⟨some l, f⟩ (Ptr.ext x) n i < l.length ∧
      f (deref l (AListEq_firstIndexOf_loop ⟨some l, f⟩ (Ptr.ext x) n i)) x = true ∧
      ∀ j : Int, i ≤ j → j < AListEq_firstIndexOf_loop ⟨some l, f⟩ (Ptr.ext x) n i →
        f (deref l j) x = false) := by
  induction n with
  | zero =>
    intro i _ h
    left
    refine ⟨rfl, ?_⟩
    intro j hij hjl
    exfalso
    simp only [Nat.cast_zero] at h
    omega
  | succ n ih =>
    intro i h0 h
    rw [AListEq_firstIndexOf_loop, AListEq_size_some, callEq_get]
    by_cases hg : i < l.length
    · simp only [hg, if_true]
      by_cases hf : f (deref l i) x = true
      · rw [if_pos hf]
        right
        exact ⟨le_refl _, hg, hf, fun j h1 h2 => absurd h2 (by omega)⟩
      · rw [if_neg hf]
        have hff : f (deref l i) x = false := by simpa using hf
        push_cast at h
        rcases ih (i + 1) (by omega) (by omega) with ⟨h1, h2⟩ | ⟨h1, h2, h3, h4⟩
        · left
          refine ⟨h1, ?_⟩
          intro j hij hjl
          by_cases hji : j = i
          · rw [hji]; exact hff
          · exact h2 j (by omega) hjl
        · right
          refine ⟨by omega, h2, h3, ?_⟩
          intro j hij hjr
          by_cases hji : j = i
          · rw [hji]; exact hff
          · exact h4 j (by omega) hjr
    · simp only [hg, if_false]
      left
      exact ⟨trivial, fun j h1 h2 => absurd h2 (by omega)⟩

/-- The value `AListEq_firstIndexOf` returns on a container whose list is `l`. -/
theorem AListEq_firstIndexOf_cases (l : AList α) (f : Option α → Option α → Bool)
    (x : Option α) (h0 : 0 ≤ l.length) :
    (AListEq_firstIndexOf (some ⟨some l, f⟩) (Ptr.ext x) = -1 ∧
      ∀ j : Int, 0 ≤ j → j < l.length → f (deref l j) x = false) ∨
    (0 ≤ AListEq_firstIndexOf (some ⟨some l, f⟩) (Ptr.ext x) ∧
      AListEq_firstIndexOf (some ⟨some l, f⟩) (Ptr.ext x) < l.length ∧
      f (deref l (AListEq_firstIndexOf (some ⟨some l, f⟩) (Ptr.ext x))) x = true ∧
      ∀ j : Int, 0 ≤ j → j < AListEq_firstIndexOf (some ⟨some l, f⟩) (Ptr.ext x) →
        f (deref l j) x = false) := by
  have h := AListEq_firstIndexOf_loop_spec l f x l.length.toNat 0 (le_refl _) (by omega)
  exact h

/-- C12: on a valid container, `AListEq_firstIndexOf(v)` returns -1 exactly when no element
satisfies `eq(element, v)`, and otherwise the lowest index in `[0, size)` whose element
satisfies it. The function stores nothing: its model yields a value only. -/
theorem AListEq_firstIndexOf_lowest (l : AList α) (f : Option α → Option α → Bool)
    (x : Option α) (hv : Valid l) :
    (AListEq_firstIndexOf (some ⟨some l, f⟩) (Ptr.ext x) = -1 ↔
      ∀ j : Int, 0 ≤ j → j < AListEq_size (some ⟨some l, f⟩) → f (deref l j) x = false) ∧
    (AListEq_firstIndexOf (some ⟨some l, f⟩) (Ptr.ext x) ≠ -1 →
      0 ≤ AListEq_firstIndexOf (some ⟨some l, f⟩) (Ptr.ext x) ∧
      AListEq_firstIndexOf (some ⟨some l, f⟩) (Ptr.ext x) < AListEq_size (some ⟨some l, f⟩) ∧
      f (deref l (AListEq_firstIndexOf (some ⟨some l, f⟩) (Ptr.ext x))) x = true ∧
      ∀ j : Int, 0 ≤ j → j < AListEq_firstIndexOf (some ⟨some l, f⟩) (Ptr.ext x) →
        f (deref l j) x = false) := by
  rw [AListEq_size_some]
  rcases AListEq_firstIndexOf_cases l f x hv.2.2.1 with ⟨h1, h2⟩ | ⟨h1, h2, h3, h4⟩
  · exact ⟨⟨fun _ => h2, fun _ => h1⟩, fun h => absurd h1 h⟩
  · refine ⟨⟨fun h => ?_, fun h => ?_⟩, fun _ => ⟨h1, h2, h3, h4⟩⟩
    · omega
    · have := h _ h1 h2
      rw [h3] at this
      exact absurd this (by decide)

/-- The theorem applied to `exABAC = [7, 8, 7, 9]`: the first index of 7 is 0. -/
theorem AListEq_firstIndexOf_lowest_witness :
    Valid exABACList ∧
    (AListEq_firstIndexOf (some exABAC) (Ptr.ext (some 7)) ≠ -1 →
      0 ≤ AListEq_firstIndexOf (some exABAC) (Ptr.ext (some 7)) ∧
      AListEq_firstIndexOf (some exABAC) (Ptr.ext (some 7)) < AListEq_size (some exABAC) ∧
      sameCell (deref exABACList (AListEq_firstIndexOf (some exABAC) (Ptr.ext (some 7))))
        (some 7) = true ∧
      ∀ j : Int, 0 ≤ j → j < AListEq_firstIndexOf (some exABAC) (Ptr.ext (some 7)) →
        sameCell (deref exABACList j) (some 7) = false) ∧
    AListEq_firstIndexOf (some exABAC) (Ptr.ext (some 7)) = 0 :=
  ⟨by decide, (AListEq_firstIndexOf_lowest exABACList sameCell (some 7) (by decide)).2,
    by decide⟩

/-- The loop of `AListEq_lastIndexOf` leaves by its guard or by `return i`: fuel beyond `i + 1`
does not change the result. -/
theorem AListEq_lastIndexOf_loop_fuel (e : AListEq α) (p : Ptr α) (n : Nat) :
    ∀ (i : Int) (m : Nat), (i + 1).toNat ≤ n →
      AListEq_lastIndexOf_loop e p (n + m) i = AListEq_lastIndexOf_loop e p n i := by
  induction n with
  | zero =>
    intro i m h
    have hg : ¬ (i ≥ 0) := by omega
    cases m with
    | zero => rfl
    | succ m =>
      rw [Nat.zero_add]
      show AListEq_lastIndexOf_loop e p (m + 1) i = -1
      rw [AListEq_lastIndexOf_loop, if_neg hg]
  | succ n ih =>
    intro i m h
    rw [show n + 1 + m = (n + m) + 1 by omega, AListEq_lastIndexOf_loop,
      AListEq_lastIndexOf_loop]
    by_cases hg : i ≥ 0
    · simp only [hg, if_true]
      split
      · rfl
      · exact ih (i - 1) m (by omega)
    · simp only [hg, if_false]

/-- The result of the loop of `AListEq_lastIndexOf` started at `i` with enough fuel: -1 when no
element at an index in `[0, i]` satisfies the predicate, otherwise the highest such index. -/
theorem AListEq_lastIndexOf_loop_spec (l : AList α) (f : Option α → Option α → Bool)
    (x : Option α) (n : Nat) : ∀ (i : Int), i + 1 ≤ n →
    (AListEq_lastIndexOf_loop ⟨some l, f⟩ (Ptr.ext x) n i = -1 ∧
      ∀ j : Int, 0 ≤ j → j ≤ i → f (deref l j) x = false) ∨
    (0 ≤ AListEq_lastIndexOf_loop ⟨some l, f⟩ (Ptr.ext x) n i ∧
      AListEq_lastIndexOf_loop ⟨some l, f⟩ (Ptr.ext x) n i ≤ i ∧
      f (deref l (AListEq_lastIndexOf_loop ⟨some l, f⟩ (Ptr.ext x) n i)) x = true ∧
      ∀ j : Int, AListEq_lastIndexOf_loop ⟨some l, f⟩ (Ptr.ext x) n i < j → j ≤ i →
        f (deref l j) x = false) := by
  induction n with
  | zero =>
    intro i h
    left
    refine ⟨rfl, ?_⟩
    intro j hj0 hji
    exfalso
    simp only [Nat.cast_zero] at h
    omega
  | succ n ih =>
    intro i h
    rw [AListEq_lastIndexOf_loop, callEq_get]
    by_cases hg : i ≥ 0
    · simp only [hg, if_true]
      by_cases hf : f (deref l i) x = true
      · rw [if_pos hf]
        right
        exact ⟨hg, le_refl _, hf, fun j h1 h2 => absurd h2 (by omega)⟩
      · rw [if_neg hf]
        have hff : f (deref l i) x = false := by simpa using hf
        push_cast at h
        rcases ih (i - 1) (by omega) with ⟨h1, h2⟩ | ⟨h1, h2, h3, h4⟩
        · left
          refine ⟨h1, ?_⟩
          intro j hj0 hji
          by_cases hje : j = i
          · rw [hje]; exact hff
          · exact h2 j hj0 (by omega)
        · right
          refine ⟨h1, by omega, h3, ?_⟩
          intro j hrj hji
          by_cases hje : j = i
          · rw [hje]; exact hff
          · exact h4 j hrj (by omega)
    · simp only [hg, if_false]
      left
      exact ⟨trivial, fun j h1 h2 => absurd h2 (by omega)⟩

/-- The value `AListEq_lastIndexOf` returns on a container whose list is `l`. -/
theorem AListEq_lastIndexOf_cases (l : AList α) (f : Option α → Option α → Bool)
    (x : Option α) (h0 : 0 ≤ l.length) :
    (AListEq_lastIndexOf (some ⟨some l, f⟩) (Ptr.ext x) = -1 ∧
      ∀ j : Int, 0 ≤ j → j < l.length → f (deref l j) x = false) ∨
    (0 ≤ AListEq_lastIndexOf (some ⟨some l, f⟩) (Ptr.ext x) ∧
      AListEq_lastIndexOf (some ⟨some l, f⟩) (Ptr.ext x) < l.length ∧
      f (deref l (AListEq_lastIndexOf (some ⟨some l, f⟩) (Ptr.ext x))) x = true ∧
      ∀ j : Int, AListEq_lastIndexOf (some ⟨some l, f⟩) (Ptr.ext x) < j → j < l.length →
        f (deref l j) x = false) := by
  have h := AListEq_lastIndexOf_loop_spec l f x l.length.toNat (l.length - 1) (by omega)
  have he : AListEq_lastIndexOf (some ⟨some l, f⟩) (Ptr.ext x) =
      AListEq_lastIndexOf_loop ⟨some l, f⟩ (Ptr.ext x) l.length.toNat (l.length - 1) := rfl
  rw [he]
  rcases h with ⟨h1, h2⟩ | ⟨h1, h2, h3, h4⟩
  · exact Or.inl ⟨h1, fun j a b => h2 j a (by omega)⟩
  · exact Or.inr ⟨h1, by omega, h3, fun j a b => h4 j a (by omega)⟩

/-- C13: on a valid container, `AListEq_lastIndexOf(v)` returns -1 exactly when no element
satisfies `eq(element, v)`, and otherwise the highest index in `[0, size)` whose element
satisfies it. The function stores nothing: its model yields a value only. -/
theorem AListEq_lastIndexOf_highest (l : AList α) (f : Option α → Option α → Bool)
    (x : Option α) (hv : Valid l) :
    (AListEq_lastIndexOf (some ⟨some l, f⟩) (Ptr.ext x) = -1 ↔
      ∀ j : Int, 0 ≤ j → j < AListEq_size (some ⟨some l, f⟩) → f (deref l j) x = false) ∧
    (AListEq_lastIndexOf (some ⟨some l, f⟩) (Ptr.ext x) ≠ -1 →
      0 ≤ AListEq_lastIndexOf (some ⟨some l, f⟩) (Ptr.ext x) ∧
      AListEq_lastIndexOf (some ⟨some l, f⟩) (Ptr.ext x) < AListEq_size (some ⟨some l, f⟩) ∧
      f (deref l (AListEq_lastIndexOf (some ⟨some l, f⟩) (Ptr.ext x))) x = true ∧
      ∀ j : Int, AListEq_lastIndexOf (some ⟨some l, f⟩) (Ptr.ext x) < j →
        j < AListEq_size (some ⟨some l, f⟩) → f (deref l j) x = false) := by
  rw [AListEq_size_some]
  rcases AListEq_lastIndexOf_cases l f x hv.2.2.1 with ⟨h1, h2⟩ | ⟨h1, h2, h3, h4⟩
  · exact ⟨⟨fun _ => h2, fun _ => h1⟩, fun h => absurd h1 h⟩
  · refine ⟨⟨fun h => ?_, fun h => ?_⟩, fun _ => ⟨h1, h2, h3, h4⟩⟩
    · omega
    · have := h _ h1 h2
      rw [h3] at this
      exact absurd this (by decide)

/-- The theorem applied to `exABAC = [7, 8, 7, 9]`: the last index of 7 is 2. -/
theorem AListEq_lastIndexOf_highest_witness :
    Valid exABACList ∧
    (AListEq_lastIndexOf (some exABAC) (Ptr.ext (some 7)) ≠ -1 →
      0 ≤ AListEq_lastIndexOf (some exABAC) (Ptr.ext (some 7)) ∧
      AListEq_lastIndexOf (some exABAC) (Ptr.ext (some 7)) < AListEq_size (some exABAC) ∧
      sameCell (deref exABACList (AListEq_lastIndexOf (some exABAC) (Ptr.ext (some 7))))
        (some 7) = true ∧
      ∀ j : Int, AListEq_lastIndexOf (some exABAC) (Ptr.ext (some 7)) < j →
        j < AListEq_size (some exABAC) → sameCell (deref exABACList j) (some 7) = false) ∧
    AListEq_lastIndexOf (some exABAC) (Ptr.ext (some 7)) = 2 :=
  ⟨by decide, (AListEq_lastIndexOf_highest exABACList sameCell (some 7) (by decide)).2,
    by decide⟩

theorem AListEq_remove_some (l : AList α) (f : Option α → Option α → Bool) (i : Int) :
    AListEq_remove (some ⟨some l, f⟩) i =
      ((AList_remove (some l) i).1, some ⟨(AList_remove (some l) i).2, f⟩) := rfl

/-- The element at the index `pre.length` of a container whose elements are `pre ++ x :: rest`. -/
theorem deref_of_elems_split (l : AList α) (pre rest : List (Option α)) (x : Option α)
    (hv : Valid l) (he : elems l = pre ++ x :: rest) :
    (pre.length : Int) < l.length ∧ deref l (pre.length : Int) = x := by
  obtain ⟨-, hcap, hl0, hlc, -⟩ := hv
  have hlen := elems_length l hl0 (by omega)
  rw [he] at hlen
  simp only [List.length_append, List.length_cons] at hlen
  have hlt : (pre.length : Int) < l.length := by omega
  refine ⟨hlt, ?_⟩
  rw [deref_eq_elems l pre.length hlt (by omega), he,
    List.getElem?_append_right (le_refl _), Nat.sub_self]
  simp

/-- The loop of `AListEq_removeAll` on a valid container whose elements are `pre ++ post`,
started at the index `pre.length` with at least `post.length` units of fuel: it leaves by its
guard, keeps `pre`, removes from `post` the elements that satisfy the predicate, and sets
`anyRemoved` when there is one. -/
theorem AListEq_removeAll_loop_spec (f : Option α → Option α → Bool) (x : Option α) (n : Nat) :
    ∀ (l : AList α) (pre post : List (Option α)) (anyRemoved : Bool), Valid l →
      elems l = pre ++ post → post.length ≤ n →
      ∃ l1 : AList α,
        AListEq_removeAll_loop (Ptr.ext x) n ⟨some l, f⟩ (pre.length : Int) anyRemoved =
          some (anyRemoved || post.any (fun y => f y x), ⟨some l1, f⟩) ∧
        Valid l1 ∧ l1.capacity = l.capacity ∧
        elems l1 = pre ++ post.filter (fun y => !f y x) := by
  induction n with
  | zero =>
    intro l pre post b hv he hn
    have hpost : post = [] := List.length_eq_zero.mp (by omega)
    subst hpost
    have hlen := elems_length l hv.2.2.1 (by have := hv.2.1; have := hv.2.2.2.1; omega)
    rw [he, List.append_nil] at hlen
    have hg : ¬ ((pre.length : Int) < AListEq_size (some ⟨some l, f⟩)) := by
      rw [AListEq_size_some]; omega
    refine ⟨l, ?_, hv, rfl, by simpa using he⟩
    rw [AListEq_removeAll_loop, if_neg hg]
    simp
  | succ n ih =>
    intro l pre post b hv he hn
    cases post with
    | nil =>
      have hlen := elems_length l hv.2.2.1 (by have := hv.2.1; have := hv.2.2.2.1; omega)
      rw [he, List.append_nil] at hlen
      have hg : ¬ ((pre.length : Int) < AListEq_size (some ⟨some l, f⟩)) := by
        rw [AListEq_size_some]; omega
      refine ⟨l, ?_, hv, rfl, by simpa using he⟩
      rw [AListEq_removeAll_loop, if_neg hg]
      simp
    | cons y rest =>
      obtain ⟨hlt, hd⟩ := deref_of_elems_split l pre rest y hv he
      have hg : (pre.length : Int) < AListEq_size (some ⟨some l, f⟩) := by
        rw [AListEq_size_some]; exact hlt
      simp only [List.length_cons] at hn
      rw [AListEq_removeAll_loop, if_pos hg, callEq_get, hd]
      by_cases hf : f y x = true
      · rw [if_pos hf]
        obtain ⟨l1, hr, -, hcap1, hv1, hel1⟩ :=
          AList_remove_spec l (pre.length : Int) hv (by omega) hlt
        have hel1' : elems l1 = pre ++ rest := by
          rw [hel1, he, Int.toNat_ofNat, List.eraseIdx_append_of_length_le (le_refl _),
            Nat.sub_self]
          rfl
        have hrem : (AListEq_remove (some ⟨some l, f⟩) (pre.length : Int)).2.getD ⟨some l, f⟩ =
            ⟨some l1, f⟩ := by
          rw [AListEq_remove_some, hr]; rfl
        rw [hrem]
        obtain ⟨l2, hr2, hv2, hcap2, hel2⟩ := ih l1 pre rest true hv1 hel1' (by omega)
        refine ⟨l2, ?_, hv2, by rw [hcap2, hcap1], ?_⟩
        · rw [hr2]; simp [hf]
        · rw [hel2]; simp [hf]
      · rw [if_neg hf]
        have hff : f y x = false := by simpa using hf
        have he' : elems l = (pre ++ [y]) ++ rest := by rw [he]; simp
        obtain ⟨l2, hr2, hv2, hcap2, hel2⟩ := ih l (pre ++ [y]) rest b hv he' (by omega)
        have hidx : (((pre ++ [y]).length : Nat) : Int) = (pre.length : Int) + 1 := by
          simp
        rw [hidx] at hr2
        refine ⟨l2, ?_, hv2, hcap2, ?_⟩
        · rw [hr2]; simp [hff]
        · rw [hel2]; simp [hff]

/-- The loop of `AListEq_removeAll` on a container none of whose elements from `i` on satisfies
the predicate: it leaves by its guard with the struct and `anyRemoved` untouched. -/
theorem AListEq_removeAll_loop_noop (e : AListEq α) (p : Ptr α) (n : Nat) :
    ∀ (i : Int) (anyRemoved : Bool),
      (∀ j : Int, i ≤ j → j < AListEq_size (some e) →
        callEq e (AListEq_get (some e) j) p = false) →
      AListEq_size (some e) - i ≤ n →
      AListEq_removeAll_loop p n e i anyRemoved = some (anyRemoved, e) := by
  induction n with
  | zero =>
    intro i b _ hn
    have hg : ¬ (i < AListEq_size (some e)) := by simp only [Nat.cast_zero] at hn; omega
    rw [AListEq_removeAll_loop, if_neg hg]
  | succ n ih =>
    intro i b hno hn
    rw [AListEq_removeAll_loop]
    by_cases hg : i < AListEq_size (some e)
    · have hf := hno i (le_refl _) hg
      rw [if_pos hg, hf]
      simp only [Bool.false_eq_true, if_false]
      push_cast at hn
      exact ih (i + 1) b (fun j h1 h2 => hno j (by omega) h2) (by omega)
    · rw [if_neg hg]

/-- On a valid container whose elements all fail the predicate, every element read through
`AListEq_get` fails it. -/
theorem callEq_false_of_filter (l : AList α) (f : Option α → Option α → Bool) (x : Option α)
    (src : List (Option α)) (hv : Valid l) (he : elems l = src.filter (fun y => !f y x))
    (j : Int) (h0 : 0 ≤ j) (hj : j < AListEq_size (some ⟨some l, f⟩)) :
    callEq ⟨some l, f⟩ (AListEq_get (some ⟨some l, f⟩) j) (Ptr.ext x) = false := by
  rw [AListEq_size_some] at hj
  obtain ⟨-, hcap, hl0, hlc, -⟩ := hv
  obtain ⟨m, rfl⟩ := Int.eq_ofNat_of_zero_le h0
  have hlen := elems_length l hl0 (by omega)
  have hm : m < (elems l).length := by omega
  rw [callEq_get, deref_eq_elems l m hj (by omega), List.getElem?_eq_getElem hm]
  have hmem : (elems l)[m] ∈ src.filter (fun y => !f y x) := by
    rw [← he]; exact List.getElem_mem hm
  have := (List.mem_filter.mp hmem).2
  simpa using this

/-- Fuel beyond what the loop of `AListEq_removeAll` needs does not change its result. -/
theorem AListEq_removeAll_loop_fuel (p : Ptr α) (n : Nat) :
    ∀ (e : AListEq α) (i : Int) (anyRemoved : Bool) (r : Bool × AListEq α) (m : Nat),
      AListEq_removeAll_loop p n e i anyRemoved = some r →
      AListEq_removeAll_loop p (n + m) e i anyRemoved = some r := by
  induction n with
  | zero =>
    intro e i b r m h
    rw [AListEq_removeAll_loop] at h
    by_cases hg : i < AListEq_size (some e)
    · rw [if_pos hg] at h
      exact absurd h (by simp)
    · rw [if_neg hg] at h
      cases m with
      | zero => rw [Nat.add_zero, AListEq_removeAll_loop, if_neg hg]; exact h
      | succ m =>
        rw [Nat.zero_add]
        show AListEq_removeAll_loop p (m + 1) e i b = some r
        rw [AListEq_removeAll_loop, if_neg hg]; exact h
  | succ n ih =>
    intro e i b r m h
    rw [AListEq_removeAll_loop] at h
    rw [show n + 1 + m = (n + m) + 1 by omega, AListEq_removeAll_loop]
    by_cases hg : i < AListEq_size (some e)
    · rw [if_pos hg] at h ⊢
      by_cases hf : callEq e (AListEq_get (some e) i) p = true
      · rw [if_pos hf] at h ⊢
        exact ih _ _ _ r m h
      · rw [if_neg hf] at h ⊢
        exact ih _ _ _ r m h
    · rw [if_neg hg] at h ⊢
      exact h

/-- C15 (removeAll exhaustiveness): on a valid container with elements `L`, with enough fuel
for `size` iterations, `AListEq_removeAll(v)` leaves exactly the elements of `L` that do not
satisfy `eq(element, v)`, in their order, and returns true exactly when some element of `L`
satisfied it; a repeated call returns false and leaves the struct as it is. -/
theorem AListEq_removeAll_exhaustive (l : AList α) (f : Option α → Option α → Bool)
    (x : Option α) (fuel : Nat) (hv : Valid l) (hfuel : l.length ≤ fuel) :
    ∃ l1 : AList α,
      AListEq_removeAll fuel (some ⟨some l, f⟩) (Ptr.ext x) =
        some ((elems l).any (fun y => f y x), some ⟨some l1, f⟩) ∧
      elems l1 = (elems l).filter (fun y => !f y x) ∧ Valid l1 ∧
      AListEq_removeAll fuel (some ⟨some l1, f⟩) (Ptr.ext x) =
        some (false, some ⟨some l1, f⟩) := by
  have hlen := elems_length l hv.2.2.1 (by have := hv.2.1; have := hv.2.2.2.1; omega)
  obtain ⟨l1, hr, hv1, -, hel⟩ :=
    AListEq_removeAll_loop_spec f x fuel l [] (elems l) false hv rfl (by omega)
  simp only [List.length_nil, Nat.cast_zero, Bool.false_or, List.nil_append] at hr hel
  refine ⟨l1, ?_, hel, hv1, ?_⟩
  · simp only [AListEq_removeAll, hr]
  · have hlen1 := elems_length l1 hv1.2.2.1
      (by have := hv1.2.1; have := hv1.2.2.2.1; omega)
    have hle : (elems l1).length ≤ (elems l).length := by
      rw [hel]; exact List.length_filter_le _ _
    have hnoop := AListEq_removeAll_loop_noop ⟨some l1, f⟩ (Ptr.ext x) fuel 0 false
      (fun j h0 hj => callEq_false_of_filter l1 f x (elems l) hv1 hel j h0 hj)
      (by rw [AListEq_size_some]; omega)
    simp only [AListEq_removeAll, hnoop]

/-- The theorem applied to `exABACA = [7, 8, 7, 9, 7]` and the value 7 with fuel 5; the
elements left are `[8, 9]`. -/
theorem AListEq_removeAll_exhaustive_witness :
    Valid exABACAList ∧ exABACAList.length ≤ ((5 : Nat) : Int) ∧
    (∃ l1 : AList Nat,
      AListEq_removeAll 5 (some ⟨some exABACAList, sameCell⟩) (Ptr.ext (some 7)) =
        some ((elems exABACAList).any (fun y => sameCell y (some 7)),
          some ⟨some l1, sameCell⟩) ∧
      elems l1 = (elems exABACAList).filter (fun y => !sameCell y (some 7)) ∧ Valid l1 ∧
      AListEq_removeAll 5 (some ⟨some l1, sameCell⟩) (Ptr.ext (some 7)) =
        some (false, some ⟨some l1, sameCell⟩)) ∧
    (elems exABACAList).any (fun y => sameCell y (some 7)) = true ∧
    (elems exABACAList).filter (fun y => !sameCell y (some 7)) = [some 8, some 9] :=
  ⟨by decide, by decide,
    AListEq_removeAll_exhaustive exABACAList sameCell (some 7) 5 (by decide) (by decide),
    by decide, by decide⟩

/-- C20: `AListEq_removeAll` terminates on every valid container: its loop, given as many
units of fuel as the container has elements, leaves by its guard with a result, and more fuel
yields the same result; an iteration that removes is an in-range `AListEq_remove`, which
returns 0 and decreases the size by one. -/
theorem AListEq_removeAll_terminates (l : AList α) (f : Option α → Option α → Bool)
    (x : Option α) (hv : Valid l) :
    (∃ r : Bool × AListEq α,
      AListEq_removeAll_loop (Ptr.ext x) l.length.toNat ⟨some l, f⟩ 0 false = some r) ∧
    (∀ m : Nat, AListEq_removeAll (l.length.toNat + m) (some ⟨some l, f⟩) (Ptr.ext x) =
      AListEq_removeAll l.length.toNat (some ⟨some l, f⟩) (Ptr.ext x)) ∧
    (∀ i : Int, 0 ≤ i → i < AListEq_size (some ⟨some l, f⟩) →
      ∃ l1 : AList α, AListEq_remove (some ⟨some l, f⟩) i = (0, some ⟨some l1, f⟩) ∧
        AListEq_size (some ⟨some l1, f⟩) = AListEq_size (some ⟨some l, f⟩) - 1 ∧ Valid l1) := by
  have hlen := elems_length l hv.2.2.1 (by have := hv.2.1; have := hv.2.2.2.1; omega)
  have hspec : ∀ n : Nat, l.length.toNat ≤ n → ∃ l1 : AList α,
      AListEq_removeAll_loop (Ptr.ext x) n ⟨some l, f⟩ 0 false =
        some ((elems l).any (fun y => f y x), ⟨some l1, f⟩) ∧
      elems l1 = (elems l).filter (fun y => !f y x) := by
    intro n hn
    obtain ⟨l1, hr, -, -, hel⟩ :=
      AListEq_removeAll_loop_spec f x n l [] (elems l) false hv rfl (by omega)
    simp only [List.length_nil, Nat.cast_zero, Bool.false_or, List.nil_append] at hr hel
    exact ⟨l1, hr, hel⟩
  refine ⟨?_, ?_, ?_⟩
  · obtain ⟨l1, hr, -⟩ := hspec l.length.toNat (le_refl _)
    exact ⟨_, hr⟩
  · intro m
    obtain ⟨l1, hr, -⟩ := hspec l.length.toNat (le_refl _)
    have hr2 := AListEq_removeAll_loop_fuel (Ptr.ext x) l.length.toNat ⟨some l, f⟩ 0 false _ m hr
    simp only [AListEq_removeAll, hr, hr2]
  · intro i h0 hi
    rw [AListEq_size_some] at hi
    obtain ⟨l1, hr, hlen1, -, hv1, -⟩ := AList_remove_spec l i hv h0 hi
    refine ⟨l1, ?_, ?_, hv1⟩
    · rw [AListEq_remove_some, hr]
    · rw [AListEq_size_some, AListEq_size_some, hlen1]

/-- The termination theorem applied to `exABACA = [7, 8, 7, 9, 7]` and the value 7: five
iterations are enough. -/
theorem AListEq_removeAll_terminates_witness :
    Valid exABACAList ∧
    (∃ r : Bool × AListEq Nat,
      AListEq_removeAll_loop (Ptr.ext (some 7)) exABACAList.length.toNat
        ⟨some exABACAList, sameCell⟩ 0 false = some r) ∧
    exABACAList.length.toNat = 5 :=
  ⟨by decide, (AListEq_removeAll_terminates exABACAList sameCell (some 7) (by decide)).1,
    by decide⟩

/-- C16: on a valid container, if some element satisfies `eq(element, v)` then
`AListEq_removeFirst(v)` returns true and leaves the original elements with the one at
`firstIndexOf(v)` erased (the others in order, the size one less); otherwise it returns false
and leaves the struct as it is. -/
theorem AListEq_removeFirst_spec (l : AList α) (f : Option α → Option α → Bool)
    (x : Option α) (hv : Valid l) :
    ((∃ j : Int, 0 ≤ j ∧ j < AListEq_size (some ⟨some l, f⟩) ∧ f (deref l j) x = true) →
      ∃ l1 : AList α,
        AListEq_removeFirst (some ⟨some l, f⟩) (Ptr.ext x) = (true, some ⟨some l1, f⟩) ∧
        elems l1 =
          (elems l).eraseIdx (AListEq_firstIndexOf (some ⟨some l, f⟩) (Ptr.ext x)).toNat ∧
        AListEq_size (some ⟨some l1, f⟩) = AListEq_size (some ⟨some l, f⟩) - 1 ∧
        l1.capacity = l.capacity ∧ Valid l1) ∧
    ((∀ j : Int, 0 ≤ j → j < AListEq_size (some ⟨some l, f⟩) → f (deref l j) x = false) →
      AListEq_removeFirst (some ⟨some l, f⟩) (Ptr.ext x) = (false, some ⟨some l, f⟩)) := by
  simp only [AListEq_size_some]
  rcases AListEq_firstIndexOf_cases l f x hv.2.2.1 with ⟨h1, h2⟩ | ⟨h1, h2, h3, h4⟩
  · refine ⟨?_, ?_⟩
    · rintro ⟨j, hj0, hjl, hjf⟩
      rw [h2 j hj0 hjl] at hjf
      exact absurd hjf (by decide)
    · intro _
      simp only [AListEq_removeFirst, h1, if_true]
  · refine ⟨?_, ?_⟩
    · intro _
      obtain ⟨l1, hr, hlen1, hcap1, hv1, hel1⟩ := AList_remove_spec l _ hv h1 h2
      have hne : ¬ (AListEq_firstIndexOf (some ⟨some l, f⟩) (Ptr.ext x) = -1) := by omega
      refine ⟨l1, ?_, hel1, hlen1, hcap1, hv1⟩
      simp only [AListEq_removeFirst, hne, if_false, AListEq_remove_some, hr]
    · intro hno
      rw [hno _ h1 h2] at h3
      exact absurd h3 (by decide)

/-- The theorem applied to `exABACA = [7, 8, 7, 9, 7]` and the value 7: the element at index 0
is removed, `[8, 7, 9, 7]` is left. -/
theorem AListEq_removeFirst_spec_witness :
    Valid exABACAList ∧
    (∃ j : Int, 0 ≤ j ∧ j < AListEq_size (some exABACA) ∧
      sameCell (deref exABACAList j) (some 7) = true) ∧
    (∃ l1 : AList Nat,
      AListEq_removeFirst (some exABACA) (Ptr.ext (some 7)) = (true, some ⟨some l1, sameCell⟩) ∧
      elems l1 =
        (elems exABACAList).eraseIdx (AListEq_firstIndexOf (some exABACA) (Ptr.ext (some 7))).toNat ∧
      AListEq_size (some ⟨some l1, sameCell⟩) = AListEq_size (some exABACA) - 1 ∧
      l1.capacity = exABACAList.capacity ∧ Valid l1) ∧
    (elems exABACAList).eraseIdx (AListEq_firstIndexOf (some exABACA) (Ptr.ext (some 7))).toNat =
      [some 8, some 7, some 9, some 7] :=
  ⟨by decide, ⟨0, by decide, by decide, by decide⟩,
    (AListEq_removeFirst_spec exABACAList sameCell (some 7) (by decide)).1
      ⟨0, by decide, by decide, by decide⟩,
    by decide⟩

/-- C17: on a valid container, if some element satisfies `eq(element, v)` then
`AListEq_removeLast(v)` returns true and leaves the original elements with the one at
`lastIndexOf(v)` erased (the others in order, the size one less); otherwise it returns false
and leaves the struct as it is. -/
theorem AListEq_removeLast_spec (l : AList α) (f : Option α → Option α → Bool)
    (x : Option α) (hv : Valid l) :
    ((∃ j : Int, 0 ≤ j ∧ j < AListEq_size (some ⟨some l, f⟩) ∧ f (deref l j) x = true) →
      ∃ l1 : AList α,
        AListEq_removeLast (some ⟨some l, f⟩) (Ptr.ext x) = (true, some ⟨some l1, f⟩) ∧
        elems l1 =
          (elems l).eraseIdx (AListEq_lastIndexOf (some ⟨some l, f⟩) (Ptr.ext x)).toNat ∧
        AListEq_size (some ⟨some l1, f⟩) = AListEq_size (some ⟨some l, f⟩) - 1 ∧
        l1.capacity = l.capacity ∧ Valid l1) ∧
    ((∀ j : Int, 0 ≤ j → j < AListEq_size (some ⟨some l, f⟩) → f (deref l j) x = false) →
      AListEq_removeLast (some ⟨some l, f⟩) (Ptr.ext x) = (false, some ⟨some l, f⟩)) := by
  simp only [AListEq_size_some]
  rcases AListEq_lastIndexOf_cases l f x hv.2.2.1 with ⟨h1, h2⟩ | ⟨h1, h2, h3, h4⟩
  · refine ⟨?_, ?_⟩
    · rintro ⟨j, hj0, hjl, hjf⟩
      rw [h2 j hj0 hjl] at hjf
      exact absurd hjf (by decide)
    · intro _
      simp only [AListEq_removeLast, h1, if_true]
  · refine ⟨?_, ?_⟩
    · intro _
      obtain ⟨l1, hr, hlen1, hcap1, hv1, hel1⟩ := AList_remove_spec l _ hv h1 h2
      have hne : ¬ (AListEq_lastIndexOf (some ⟨some l, f⟩) (Ptr.ext x) = -1) := by omega
      refine ⟨l1, ?_, hel1, hlen1, hcap1, hv1⟩
      simp only [AListEq_removeLast, hne, if_false, AListEq_remove_some, hr]
    · intro hno
      rw [hno _ h1 h2] at h3
      exact absurd h3 (by decide)

/-- The theorem applied to `exABACA = [7, 8, 7, 9, 7]` and the value 7: the element at index 4
is removed, `[7, 8, 7, 9]` is left. -/
theorem AListEq_removeLast_spec_witness :
    Valid exABACAList ∧
    (∃ j : Int, 0 ≤ j ∧ j < AListEq_size (some exABACA) ∧
      sameCell (deref exABACAList j) (some 7) = true) ∧
    (∃ l1 : AList Nat,
      AListEq_removeLast (some exABACA) (Ptr.ext (some 7)) = (true, some ⟨some l1, sameCell⟩) ∧
      elems l1 =
        (elems exABACAList).eraseIdx (AListEq_lastIndexOf (some exABACA) (Ptr.ext (some 7))).toNat ∧
      AListEq_size (some ⟨some l1, sameCell⟩) = AListEq_size (some exABACA) - 1 ∧
      l1.capacity = exABACAList.capacity ∧ Valid l1) ∧
    (elems exABACAList).eraseIdx (AListEq_lastIndexOf (some exABACA) (Ptr.ext (some 7))).toNat =
      [some 7, some 8, some 7, some 9] :=
  ⟨by decide, ⟨0, by decide, by decide, by decide⟩,
    (AListEq_removeLast_spec exABACAList sameCell (some 7) (by decide)).1
      ⟨0, by decide, by decide, by decide⟩,
    by decide⟩

/-- C14 at the failing input: on the `NULL` handle `AListEq_contains` executes `return -1`,
which its return type `bool` turns into true, while `AListEq_firstIndexOf` returns -1, which
is not `≥ 0`. -/
theorem AListEq_contains_null :
    AListEq_contains (none : Option (AListEq Nat)) (Ptr.ext (some 5)) = true ∧
    AListEq_firstIndexOf (none : Option (AListEq Nat)) (Ptr.ext (some 5)) = -1 ∧
    ¬ (AListEq_firstIndexOf (none : Option (AListEq Nat)) (Ptr.ext (some 5)) ≥ 0) := by
  decide

/-- On every handle that is not `NULL`, `AListEq_contains` is true exactly when
`AListEq_firstIndexOf` is `≥ 0`; on a valid container, exactly when some element satisfies the
predicate. -/
theorem AListEq_contains_iff (l : AList α) (f : Option α → Option α → Bool) (x : Option α)
    (e : AListEq α) (p : Ptr α) (hv : Valid l) :
    (AListEq_contains (some e) p = true ↔ AListEq_firstIndexOf (some e) p ≥ 0) ∧
    (AListEq_contains (some ⟨some l, f⟩) (Ptr.ext x) = true ↔
      ∃ j : Int, 0 ≤ j ∧ j < l.length ∧ f (deref l j) x = true) := by
  refine ⟨by simp [AListEq_contains], ?_⟩
  simp only [AListEq_contains, decide_eq_true_eq]
  rcases AListEq_firstIndexOf_cases l f x hv.2.2.1 with ⟨h1, h2⟩ | ⟨h1, h2, h3, h4⟩
  · constructor
    · intro h; omega
    · rintro ⟨j, hj0, hjl, hjf⟩
      rw [h2 j hj0 hjl] at hjf
      exact absurd hjf (by decide)
  · exact ⟨fun _ => ⟨_, h1, h2, h3⟩, fun _ => h1⟩

/-- C19 at the failing input: on the `NULL` handle `AListEq_size` returns 1 where `AList_size`
returns -1, and 1 is the size of a valid container with one element. -/
theorem AListEq_size_null :
    AListEq_size (none : Option (AListEq Nat)) = 1 ∧
    AList_size (none : Option (AList Nat)) = -1 ∧
    Valid ({ content := [some 7], cellSize := 4, capacity := 1, length := 1, ub := false } :
      AList Nat) ∧
    AListEq_size (some ⟨some { content := [some 7], cellSize := 4, capacity := 1, length := 1,
                               ub := false }, sameCell⟩) = 1 := by
  decide

end Collections
